import Mathlib

/-!
Shallow embedding of xfsprogs `repair/phase7.c` (link-count reconciliation,
phase 7 of xfs_repair) and verification of its specification claims.

Modelling conventions:
* The on-disk state relevant to this phase is the link count (`di_nlink`)
  of each inode, modelled as `Disk := Nat → Option Nat`; `none` means
  `libxfs_trans_iget` fails for that inode number (the only inode-load
  failure mode the code distinguishes).
* Side effects (diagnostics, transaction lifecycle operations, progress
  accounting) are recorded as an event trace `List Event`.  A ghost
  `Event.visit` marker records each live (non-free) inode slot the walker
  examines.
* `do_error` aborts the whole run: functions return `Option`, with `none`
  for an aborted run.
* `ASSERT`/`assert` statements are modelled as no-ops (as in non-DEBUG
  builds); none of the verified claims depends on assertion aborts.
* The global variables of the C code (`no_modify`, `orphanage_ino`,
  `glob_agcount`, `do_prefetch`) and the mount-dependent constants
  (`XFS_INO_AGINO_BITS(mp)`, `XFS_REMOVE_LOG_RES(mp)`) are packaged in
  explicit `Globals`/`Snapshot` structures.
* The worker pool of `phase7_alt` executes one task per allocation group;
  tasks share no mutable state except the disk, and each task is a
  sequential computation, so a pool execution is modelled by running the
  tasks in an arbitrary order (`sched`), a permutation of the AG list.
-/

namespace XfsPhase7

/-- `XFS_INODES_PER_CHUNK`: number of inode slots per in-core chunk record. -/
def XFS_INODES_PER_CHUNK : Nat := 64

/-- `XFS_MAXLINK_1`: largest link count representable in a version-1 inode. -/
def XFS_MAXLINK_1 : Nat := 65535

/-- One in-core inode chunk record (`ino_tree_node_t`) with its per-slot
query functions from `incore.h`.  Slot indices range over
`[0, XFS_INODES_PER_CHUNK)`. -/
structure InoTreeNode where
  ino_startnum : Nat
  is_inode_confirmed : Nat → Bool
  is_inode_free : Nat → Bool
  is_inode_reached : Nat → Bool
  is_inode_referenced : Nat → Bool
  get_inode_disk_nlinks : Nat → Nat
  num_inode_references : Nat → Nat

/-- The global variables and mount constants phase 7 reads. -/
structure Globals where
  no_modify : Bool
  orphanage_ino : Nat
  do_prefetch : Bool
  /-- `XFS_INO_AGINO_BITS(mp)`: bit width of the AG-relative part of an
  absolute inode number. -/
  aginoBits : Nat
  /-- `XFS_REMOVE_LOG_RES(mp)`: the fixed log-space reservation used by
  `update_inode_nlinks`. -/
  removeLogRes : Nat

/-- The in-core inode record tree built by phases 3-6: for each AG, the
ordered chain of chunk records delivered by
`findfirst_inode_rec` / `next_ino_rec`. -/
structure Snapshot where
  glob_agcount : Nat
  recs : Nat → List InoTreeNode

/-- On-disk state abstraction: inode number to its on-disk `di_nlink`;
`none` means the inode cannot be mapped (`libxfs_trans_iget` error). -/
abbrev Disk := Nat → Option Nat

/-- `XFS_AGINO_TO_INO(mp, agno, agino)`:
`((xfs_ino_t)(agno) << XFS_INO_AGINO_BITS(mp)) | (agino)`. -/
def XFS_AGINO_TO_INO (bits agno agino : Nat) : Nat :=
  agno <<< bits ||| agino

/-- Observable events of one phase-7 run (diagnostics, transaction
lifecycle, progress accounting) plus the ghost `visit` marker. -/
inductive Event where
  /-- `do_log` header of `phase7` (`true` = verify-only phrasing). -/
  | logMsg (verifyOnly : Bool)
  /-- `set_progress_msg` of `phase7_alt`. -/
  | startMsg (verifyOnly : Bool)
  /-- `print_final_rpt` of `phase7_alt`. -/
  | finalRpt
  /-- `PROG_RPT_INC(prog_rpt_done[agno], n)`. -/
  | progress (agno n : Nat)
  /-- Ghost marker: the walker examined live slot `agino` of AG `agno`. -/
  | visit (agno agino : Nat)
  /-- `libxfs_trans_reserve(tp, blockres, logres, ...)`. -/
  | reserve (blockres logres : Nat)
  /-- dry-run warning: `couldn't map inode ..., can't compare link counts`. -/
  | warnNoMap (ino : Nat)
  /-- warning: `resetting inode ... nlinks from ... to ...`. -/
  | warnReset (ino oldn newn : Nat)
  /-- warning: `nlinks ... will overflow v1 ino, ino ... will be converted
  to version 2`. -/
  | warnOverflowV1 (n ino : Nat)
  /-- dry-run warning: `would have reset inode ... nlinks from ... to ...`. -/
  | warnWouldReset (ino oldn newn : Nat)
  /-- `libxfs_trans_iput(tp, ip, 0)`. -/
  | iput (ino : Nat)
  /-- `libxfs_trans_cancel(tp, XFS_TRANS_RELEASE_LOG_RES)`. -/
  | cancel (ino : Nat)
  /-- `libxfs_trans_log_inode(tp, ip, XFS_ILOG_CORE)`. -/
  | logInode (ino : Nat)
  /-- `libxfs_trans_commit(tp, XFS_TRANS_RELEASE_LOG_RES | XFS_TRANS_SYNC)`. -/
  | commitSync (ino : Nat)
  deriving DecidableEq, Repr

/-- `set_nlinks(dinoc, ino, nrefs, &dirty)`: acts on the in-core dinode's
`di_nlink` field and the caller's `dirty` flag; returns the updated field,
the updated flag, and the warnings emitted.  (`ASSERT(fs_inode_nlink)` is a
no-op here, cf. module header.) -/
def set_nlinks (no_modify : Bool) (di_nlink : Nat) (ino nrefs : Nat)
    (dirty : Bool) : Nat × Bool × List Event :=
  if di_nlink = nrefs then
    (di_nlink, dirty, [])
  else if no_modify = false then
    (nrefs, true,
      Event.warnReset ino di_nlink nrefs ::
        (if XFS_MAXLINK_1 < nrefs then [Event.warnOverflowV1 nrefs ino]
         else []))
  else
    (di_nlink, dirty, [Event.warnWouldReset ino di_nlink nrefs])

/-- `update_inode_nlinks(mp, ino, nlinks)`: one transaction lifecycle.
Returns `none` when `do_error` aborts the run (iget failure in mutation
mode); otherwise the new disk state and the event trace.  A commit
persists the in-core `di_nlink` produced by `set_nlinks`. -/
def update_inode_nlinks (g : Globals) (disk : Disk) (ino nlinks : Nat) :
    Option (Disk × List Event) :=
  let resEv := Event.reserve (if g.no_modify then 0 else 10) g.removeLogRes
  match disk ino with
  | none =>
    if g.no_modify then
      some (disk, [resEv, Event.warnNoMap ino])
    else
      none
  | some di_nlink =>
    let s :=
      if ino ≠ g.orphanage_ino then
        set_nlinks g.no_modify di_nlink ino nlinks false
      else
        (di_nlink, false, [])
    if s.2.1 = false then
      some (disk, resEv :: s.2.2 ++ [Event.iput ino, Event.cancel ino])
    else
      some (fun i => if i = ino then some s.1 else disk i,
        resEv :: s.2.2 ++ [Event.logInode ino, Event.commitSync ino])

/-- Inner slot loop of `phase7` (`for (j = 0; j < XFS_INODES_PER_CHUNK; j++)`),
parameterised by the list of remaining slot indices. -/
def phase7_slots (g : Globals) (agno : Nat) (irec : InoTreeNode) :
    List Nat → Disk → Option (Disk × List Event)
  | [], d => some (d, [])
  | j :: js, d =>
    if irec.is_inode_free j then
      phase7_slots g agno irec js d
    else
      let nrefs := irec.num_inode_references j
      if irec.get_inode_disk_nlinks j ≠ nrefs then
        match update_inode_nlinks g d
            (XFS_AGINO_TO_INO g.aginoBits agno (irec.ino_startnum + j))
            nrefs with
        | none => none
        | some (d', evs) =>
          match phase7_slots g agno irec js d' with
          | none => none
          | some (d'', evs') =>
            some (d'',
              Event.visit agno (irec.ino_startnum + j) :: (evs ++ evs'))
      else
        match phase7_slots g agno irec js d with
        | none => none
        | some (d', evs') =>
          some (d', Event.visit agno (irec.ino_startnum + j) :: evs')

/-- Chunk loop of `phase7` (`while (irec != NULL)`), parameterised by the
remaining chunk chain of the AG. -/
def phase7_chunks (g : Globals) (agno : Nat) :
    List InoTreeNode → Disk → Option (Disk × List Event)
  | [], d => some (d, [])
  | irec :: rest, d =>
    match phase7_slots g agno irec (List.range XFS_INODES_PER_CHUNK) d with
    | none => none
    | some (d', evs) =>
      match phase7_chunks g agno rest d' with
      | none => none
      | some (d'', evs') => some (d'', evs ++ evs')

/-- AG loop of `phase7` (`for (i = 0; i < glob_agcount; i++)`). -/
def phase7_ags (g : Globals) (snap : Snapshot) :
    List Nat → Disk → Option (Disk × List Event)
  | [], d => some (d, [])
  | i :: rest, d =>
    match phase7_chunks g i (snap.recs i) d with
    | none => none
    | some (d', evs) =>
      match phase7_ags g snap rest d' with
      | none => none
      | some (d'', evs') => some (d'', evs ++ evs')

/-- Inner slot loop of `phase7_alt_function` — textually the same walk as
`phase7_slots` (the C code duplicates the loop body). -/
def phase7_alt_slots (g : Globals) (agno : Nat) (irec : InoTreeNode) :
    List Nat → Disk → Option (Disk × List Event)
  | [], d => some (d, [])
  | j :: js, d =>
    if irec.is_inode_free j then
      phase7_alt_slots g agno irec js d
    else
      let nrefs := irec.num_inode_references j
      if irec.get_inode_disk_nlinks j ≠ nrefs then
        match update_inode_nlinks g d
            (XFS_AGINO_TO_INO g.aginoBits agno (irec.ino_startnum + j))
            nrefs with
        | none => none
        | some (d', evs) =>
          match phase7_alt_slots g agno irec js d' with
          | none => none
          | some (d'', evs') =>
            some (d'',
              Event.visit agno (irec.ino_startnum + j) :: (evs ++ evs'))
      else
        match phase7_alt_slots g agno irec js d with
        | none => none
        | some (d', evs') =>
          some (d', Event.visit agno (irec.ino_startnum + j) :: evs')

/-- Chunk loop of `phase7_alt_function`; after each chunk it advances the
AG's progress counter by `XFS_INODES_PER_CHUNK`. -/
def phase7_alt_chunks (g : Globals) (agno : Nat) :
    List InoTreeNode → Disk → Option (Disk × List Event)
  | [], d => some (d, [])
  | irec :: rest, d =>
    match phase7_alt_slots g agno irec (List.range XFS_INODES_PER_CHUNK) d with
    | none => none
    | some (d', evs) =>
      match phase7_alt_chunks g agno rest d' with
      | none => none
      | some (d'', evs') =>
        some (d'', evs ++ Event.progress agno XFS_INODES_PER_CHUNK :: evs')

/-- `phase7_alt_function(mp, agno)`: the per-AG worker task. -/
def phase7_alt_function (g : Globals) (snap : Snapshot) (agno : Nat)
    (d : Disk) : Option (Disk × List Event) :=
  phase7_alt_chunks g agno (snap.recs agno) d

/-- Worker-pool execution of the per-AG tasks, in pool order `sched`. -/
def phase7_alt_tasks (g : Globals) (snap : Snapshot) :
    List Nat → Disk → Option (Disk × List Event)
  | [], d => some (d, [])
  | a :: rest, d =>
    match phase7_alt_function g snap a d with
    | none => none
    | some (d', evs) =>
      match phase7_alt_tasks g snap rest d' with
      | none => none
      | some (d'', evs') => some (d'', evs ++ evs')

/-- `phase7_alt(mp)`: progress-message setup, one task queued per AG in
`[0, glob_agcount)` executed by the pool in order `sched`, barrier, final
report. -/
def phase7_alt (g : Globals) (snap : Snapshot) (sched : List Nat)
    (d : Disk) : Option (Disk × List Event) :=
  match phase7_alt_tasks g snap sched d with
  | none => none
  | some (d', evs) =>
    some (d', Event.startMsg g.no_modify :: evs ++ [Event.finalRpt])

/-- `phase7(mp)`: log the phase header, then either dispatch to
`phase7_alt` (when `do_prefetch`) or run the sequential nested loop. -/
def phase7 (g : Globals) (snap : Snapshot) (sched : List Nat) (d : Disk) :
    Option (Disk × List Event) :=
  match
    (if g.do_prefetch then
      phase7_alt g snap sched d
    else
      phase7_ags g snap (List.range snap.glob_agcount) d) with
  | none => none
  | some (d', evs) => some (d', Event.logMsg g.no_modify :: evs)

/-- The corrections performed by a run: one `(ino, new value)` pair per
actual `di_nlink` overwrite (each overwrite is announced by exactly one
`resetting inode` warning). -/
def corrections (tr : List Event) : List (Nat × Nat) :=
  tr.filterMap fun e =>
    match e with
    | Event.warnReset ino _ newn => some (ino, newn)
    | _ => none

/-- The inodes whose transactions were committed during a run. -/
def commitInos (tr : List Event) : List Nat :=
  tr.filterMap fun e =>
    match e with
    | Event.commitSync ino => some ino
    | _ => none

/-- The `(AG, AG-relative inode number)` pairs of the slots the walker
examined (ghost `visit` markers). -/
def visitedPairs (tr : List Event) : List (Nat × Nat) :=
  tr.filterMap fun e =>
    match e with
    | Event.visit a i => some (a, i)
    | _ => none

/-! ## Arithmetic of inode identities -/

/-- Bitwise-or acts as addition when the low `b` bits of the left operand
are clear. -/
theorem two_pow_mul_lor_of_lt {b i : Nat} (a : Nat) (h : i < 2 ^ b) :
    2 ^ b * a ||| i = 2 ^ b * a + i := by
  induction b generalizing a i with
  | zero =>
    have hi : i = 0 := by omega
    subst hi
    simp
  | succ b ih =>
    have hi : Nat.bit (decide (i % 2 = 1)) (i >>> 1) = i :=
      Nat.bit_decide_mod_two_eq_one_shiftRight_one i
    have ha : 2 ^ (b + 1) * a = Nat.bit false (2 ^ b * a) := by
      simp only [Nat.bit, Bool.cond_false]
      ring
    have hlt : i >>> 1 < 2 ^ b := by
      rw [Nat.shiftRight_one]
      have : 2 ^ (b + 1) = 2 * 2 ^ b := by ring
      omega
    rw [ha, ← hi, Nat.lor_bit, ih a hlt]
    simp only [Nat.bit_val, Bool.false_or, Bool.toNat_false]
    omega

/-- Under the AG-relative bound, `XFS_AGINO_TO_INO` is plain positional
arithmetic. -/
theorem XFS_AGINO_TO_INO_eq {bits agino : Nat} (agno : Nat)
    (h : agino < 2 ^ bits) :
    XFS_AGINO_TO_INO bits agno agino = 2 ^ bits * agno + agino := by
  rw [XFS_AGINO_TO_INO, Nat.shiftLeft_eq, Nat.mul_comm,
    two_pow_mul_lor_of_lt agno h]

/-- The AG number is recovered from an inode identity by shifting. -/
theorem XFS_AGINO_TO_INO_shiftRight {bits agino : Nat} (agno : Nat)
    (h : agino < 2 ^ bits) :
    XFS_AGINO_TO_INO bits agno agino >>> bits = agno := by
  rw [XFS_AGINO_TO_INO_eq agno h, Nat.shiftRight_eq_div_pow]
  rw [Nat.mul_comm, Nat.add_comm, Nat.add_mul_div_right _ _ (by positivity)]
  rw [Nat.div_eq_of_lt h]
  omega

/-- Inode identities are injective on bounded `(agno, agino)` pairs. -/
theorem XFS_AGINO_TO_INO_inj {bits a a' i i' : Nat}
    (hi : i < 2 ^ bits) (hi' : i' < 2 ^ bits)
    (h : XFS_AGINO_TO_INO bits a i = XFS_AGINO_TO_INO bits a' i') :
    a = a' ∧ i = i' := by
  rw [XFS_AGINO_TO_INO_eq a hi, XFS_AGINO_TO_INO_eq a' hi'] at h
  have ha : a = a' := by
    by_contra hne
    rcases Nat.lt_or_ge a a' with hlt | hge
    · nlinarith [Nat.mul_le_mul_left (2 ^ bits) (Nat.succ_le_of_lt hlt)]
    · have hlt : a' < a := by omega
      nlinarith [Nat.mul_le_mul_left (2 ^ bits) (Nat.succ_le_of_lt hlt)]
  subst ha
  omega

/-! ## Characterization of `update_inode_nlinks` -/

/-- The run aborts (`do_error`) exactly on an iget failure in mutation
mode. -/
theorem update_eq_none_iff (g : Globals) (d : Disk) (ino n : Nat) :
    update_inode_nlinks g d ino n = none ↔
      d ino = none ∧ g.no_modify = false := by
  cases hd : d ino with
  | none =>
    simp only [update_inode_nlinks, hd]
    cases hnm : g.no_modify <;> simp [hnm]
  | some v =>
    simp only [update_inode_nlinks, hd]
    split <;> split <;> simp

/-- `update_inode_nlinks` never touches the disk at any other inode. -/
theorem update_frame {g : Globals} {d e : Disk} {ino n : Nat}
    {evs : List Event}
    (h : update_inode_nlinks g d ino n = some (e, evs)) :
    ∀ i, i ≠ ino → e i = d i := by
  intro i hi
  cases hd : d ino with
  | none =>
    simp only [update_inode_nlinks, hd] at h
    split at h
    · simp only [Option.some.injEq, Prod.mk.injEq] at h
      rw [← h.1]
    · exact absurd h (by simp)
  | some v =>
    simp only [update_inode_nlinks, hd] at h
    split at h <;> split at h <;>
      simp only [Option.some.injEq, Prod.mk.injEq] at h <;>
      rw [← h.1] <;> simp [hi]

/-- `update_inode_nlinks` never changes the orphanage inode's on-disk
link count: for any other target it writes elsewhere, and for the
orphanage itself `set_nlinks` is skipped, so `dirty` stays 0. -/
theorem update_orph_pres {g : Globals} {d e : Disk} {ino n : Nat}
    {evs : List Event}
    (h : update_inode_nlinks g d ino n = some (e, evs)) :
    e g.orphanage_ino = d g.orphanage_ino := by
  by_cases hio : ino = g.orphanage_ino
  · subst hio
    cases hd : d g.orphanage_ino with
    | none =>
      simp only [update_inode_nlinks, hd] at h
      split at h
      · simp only [Option.some.injEq, Prod.mk.injEq] at h
        rw [← h.1]
        exact hd
      · exact absurd h (by simp)
    | some v =>
      simp only [update_inode_nlinks, hd] at h
      split at h
      · exact absurd rfl (by assumption)
      · rw [if_pos rfl] at h
        simp only [Option.some.injEq, Prod.mk.injEq] at h
        rw [← h.1]
        exact hd
  · exact update_frame h _ (fun hh => hio hh.symm)

/-! ## Trace utilities -/

theorem corrections_append (l₁ l₂ : List Event) :
    corrections (l₁ ++ l₂) = corrections l₁ ++ corrections l₂ := by
  simp [corrections]

theorem commitInos_append (l₁ l₂ : List Event) :
    commitInos (l₁ ++ l₂) = commitInos l₁ ++ commitInos l₂ := by
  simp [commitInos]

theorem visitedPairs_append (l₁ l₂ : List Event) :
    visitedPairs (l₁ ++ l₂) = visitedPairs l₁ ++ visitedPairs l₂ := by
  simp [visitedPairs]

/-- The two copies of the slot loop (sequential `phase7` and concurrent
`phase7_alt_function`) are the same function of their inputs. -/
theorem phase7_alt_slots_eq (g : Globals) (agno : Nat) (irec : InoTreeNode)
    (js : List Nat) :
    ∀ d, phase7_alt_slots g agno irec js d = phase7_slots g agno irec js d := by
  induction js with
  | nil => intro d; rfl
  | cons j js ih =>
    intro d
    simp only [phase7_alt_slots, phase7_slots, ih]

/-! ## Dry-run behaviour -/

/-- In dry-run mode one applier invocation always completes, leaves the
disk untouched, performs no correction and commits nothing. -/
theorem update_dryrun {g : Globals} (hnm : g.no_modify = true) (d : Disk)
    (ino n : Nat) :
    ∃ evs, update_inode_nlinks g d ino n = some (d, evs) ∧
      corrections evs = [] ∧ commitInos evs = [] := by
  cases hd : d ino with
  | none =>
    exact ⟨[Event.reserve 0 g.removeLogRes, Event.warnNoMap ino],
      by simp [update_inode_nlinks, hd, hnm],
      by simp [corrections], by simp [commitInos]⟩
  | some v =>
    by_cases ho : ino ≠ g.orphanage_ino
    · by_cases hv : v = n
      · exact ⟨[Event.reserve 0 g.removeLogRes, Event.iput ino,
            Event.cancel ino],
          by simp [update_inode_nlinks, hd, hnm, ho, set_nlinks, hv],
          by simp [corrections], by simp [commitInos]⟩
      · exact ⟨[Event.reserve 0 g.removeLogRes,
            Event.warnWouldReset ino v n, Event.iput ino, Event.cancel ino],
          by simp [update_inode_nlinks, hd, hnm, ho, set_nlinks, hv],
          by simp [corrections], by simp [commitInos]⟩
    · exact ⟨[Event.reserve 0 g.removeLogRes, Event.iput ino,
          Event.cancel ino],
        by simp [update_inode_nlinks, hd, hnm, ho],
        by simp [corrections], by simp [commitInos]⟩

/-- Dry-run slot walk: completes, no disk change, no corrections, no
commits. -/
theorem phase7_slots_dryrun {g : Globals} (hnm : g.no_modify = true)
    (agno : Nat) (irec : InoTreeNode) (js : List Nat) :
    ∀ d : Disk, ∃ evs, phase7_slots g agno irec js d = some (d, evs) ∧
      corrections evs = [] ∧ commitInos evs = [] := by
  induction js with
  | nil =>
    intro d
    exact ⟨[], by simp [phase7_slots], rfl, rfl⟩
  | cons j js ih =>
    intro d
    obtain ⟨evs', h', hc', hm'⟩ := ih d
    by_cases hf : irec.is_inode_free j
    · exact ⟨evs', by simp [phase7_slots, hf, h'], hc', hm'⟩
    · by_cases hms : irec.get_inode_disk_nlinks j ≠ irec.num_inode_references j
      · obtain ⟨evs₀, h₀, hc₀, hm₀⟩ := update_dryrun hnm d
          (XFS_AGINO_TO_INO g.aginoBits agno (irec.ino_startnum + j))
          (irec.num_inode_references j)
        refine ⟨Event.visit agno (irec.ino_startnum + j) :: (evs₀ ++ evs'),
          by simp [phase7_slots, hf, hms, h₀, h'], ?_, ?_⟩
        · simp [corrections, List.filterMap_append] at hc₀ hc' ⊢
          exact ⟨hc₀, hc'⟩
        · simp [commitInos, List.filterMap_append] at hm₀ hm' ⊢
          exact ⟨hm₀, hm'⟩
      · refine ⟨Event.visit agno (irec.ino_startnum + j) :: evs',
          by simp [phase7_slots, hf, hms, h'], ?_, ?_⟩
        · simpa [corrections] using hc'
        · simpa [commitInos] using hm'

/-- Dry-run chunk walk (sequential flavour). -/
theorem phase7_chunks_dryrun {g : Globals} (hnm : g.no_modify = true)
    (agno : Nat) (chain : List InoTreeNode) :
    ∀ d : Disk, ∃ evs, phase7_chunks g agno chain d = some (d, evs) ∧
      corrections evs = [] ∧ commitInos evs = [] := by
  induction chain with
  | nil =>
    intro d
    exact ⟨[], by simp [phase7_chunks], rfl, rfl⟩
  | cons irec rest ih =>
    intro d
    obtain ⟨evs₀, h₀, hc₀, hm₀⟩ := phase7_slots_dryrun hnm agno irec
      (List.range XFS_INODES_PER_CHUNK) d
    obtain ⟨evs', h', hc', hm'⟩ := ih d
    refine ⟨evs₀ ++ evs', by simp [phase7_chunks, h₀, h'], ?_, ?_⟩
    · simp [corrections_append, hc₀, hc']
    · simp [commitInos_append, hm₀, hm']

/-- Dry-run AG walk (sequential flavour). -/
theorem phase7_ags_dryrun {g : Globals} (hnm : g.no_modify = true)
    (snap : Snapshot) (ags : List Nat) :
    ∀ d : Disk, ∃ evs, phase7_ags g snap ags d = some (d, evs) ∧
      corrections evs = [] ∧ commitInos evs = [] := by
  induction ags with
  | nil =>
    intro d
    exact ⟨[], by simp [phase7_ags], rfl, rfl⟩
  | cons a rest ih =>
    intro d
    obtain ⟨evs₀, h₀, hc₀, hm₀⟩ := phase7_chunks_dryrun hnm a (snap.recs a) d
    obtain ⟨evs', h', hc', hm'⟩ := ih d
    refine ⟨evs₀ ++ evs', by simp [phase7_ags, h₀, h'], ?_, ?_⟩
    · simp [corrections_append, hc₀, hc']
    · simp [commitInos_append, hm₀, hm']

/-- Dry-run chunk walk (concurrent flavour, with progress accounting). -/
theorem phase7_alt_chunks_dryrun {g : Globals} (hnm : g.no_modify = true)
    (agno : Nat) (chain : List InoTreeNode) :
    ∀ d : Disk, ∃ evs, phase7_alt_chunks g agno chain d = some (d, evs) ∧
      corrections evs = [] ∧ commitInos evs = [] := by
  induction chain with
  | nil =>
    intro d
    exact ⟨[], by simp [phase7_alt_chunks], rfl, rfl⟩
  | cons irec rest ih =>
    intro d
    obtain ⟨evs₀, h₀, hc₀, hm₀⟩ := phase7_slots_dryrun hnm agno irec
      (List.range XFS_INODES_PER_CHUNK) d
    obtain ⟨evs', h', hc', hm'⟩ := ih d
    refine ⟨evs₀ ++ Event.progress agno XFS_INODES_PER_CHUNK :: evs',
      by simp [phase7_alt_chunks, phase7_alt_slots_eq, h₀, h'], ?_, ?_⟩
    · simp [corrections, List.filterMap_append] at hc₀ hc' ⊢
      exact ⟨hc₀, hc'⟩
    · simp [commitInos, List.filterMap_append] at hm₀ hm' ⊢
      exact ⟨hm₀, hm'⟩

/-- Dry-run task pool: any schedule completes without mutating anything. -/
theorem phase7_alt_tasks_dryrun {g : Globals} (hnm : g.no_modify = true)
    (snap : Snapshot) (sched : List Nat) :
    ∀ d : Disk, ∃ evs, phase7_alt_tasks g snap sched d = some (d, evs) ∧
      corrections evs = [] ∧ commitInos evs = [] := by
  induction sched with
  | nil =>
    intro d
    exact ⟨[], by simp [phase7_alt_tasks], rfl, rfl⟩
  | cons a rest ih =>
    intro d
    obtain ⟨evs₀, h₀, hc₀, hm₀⟩ := phase7_alt_chunks_dryrun hnm a (snap.recs a) d
    obtain ⟨evs', h', hc', hm'⟩ := ih d
    refine ⟨evs₀ ++ evs', by simp [phase7_alt_tasks, phase7_alt_function, h₀, h'], ?_, ?_⟩
    · simp [corrections_append, hc₀, hc']
    · simp [commitInos_append, hm₀, hm']

/-! ## Sequencing combinators and unrolling lemmas

The walk definitions above follow the C control flow literally; for the
proofs it is convenient to re-express one loop iteration through two
combinators: `consEv` (prefix one event) and `seqRes` (run a stage, then
continue from its disk, concatenating traces). -/

def consEv (ev : Event) : Option (Disk × List Event) → Option (Disk × List Event)
  | none => none
  | some (d, evs) => some (d, ev :: evs)

def seqRes (x : Option (Disk × List Event))
    (f : Disk → Option (Disk × List Event)) : Option (Disk × List Event) :=
  match x with
  | none => none
  | some (d, evs) =>
    match f d with
    | none => none
    | some (d', evs') => some (d', evs ++ evs')

theorem consEv_eq_some {ev : Event} {r : Option (Disk × List Event)}
    {e : Disk} {tr : List Event} :
    consEv ev r = some (e, tr) ↔
      ∃ tr₀, r = some (e, tr₀) ∧ tr = ev :: tr₀ := by
  cases r with
  | none => simp [consEv]
  | some p =>
    obtain ⟨d, evs⟩ := p
    simp only [consEv, Option.some.injEq, Prod.mk.injEq]
    constructor
    · rintro ⟨rfl, rfl⟩
      exact ⟨evs, ⟨rfl, rfl⟩, rfl⟩
    · rintro ⟨tr₀, ⟨rfl, rfl⟩, rfl⟩
      exact ⟨rfl, rfl⟩

theorem seqRes_eq_some {x : Option (Disk × List Event)}
    {f : Disk → Option (Disk × List Event)} {e : Disk} {tr : List Event} :
    seqRes x f = some (e, tr) ↔
      ∃ d₁ evs₁ evs₂, x = some (d₁, evs₁) ∧ f d₁ = some (e, evs₂) ∧
        tr = evs₁ ++ evs₂ := by
  constructor
  · intro h
    cases x with
    | none => exact absurd h (by simp [seqRes])
    | some p =>
      obtain ⟨d₁, evs₁⟩ := p
      simp only [seqRes] at h
      cases hf : f d₁ with
      | none => rw [hf] at h; exact absurd h (by simp)
      | some q =>
        obtain ⟨d₂, evs₂⟩ := q
        rw [hf] at h
        simp only [Option.some.injEq, Prod.mk.injEq] at h
        obtain ⟨rfl, rfl⟩ := h
        exact ⟨d₁, evs₁, evs₂, rfl, hf, rfl⟩
  · rintro ⟨d₁, evs₁, evs₂, rfl, hf, rfl⟩
    simp [seqRes, hf]

/-- One iteration of the sequential slot loop, re-expressed. -/
theorem phase7_slots_cons (g : Globals) (agno : Nat) (irec : InoTreeNode)
    (j : Nat) (js : List Nat) (d : Disk) :
    phase7_slots g agno irec (j :: js) d =
      if irec.is_inode_free j then
        phase7_slots g agno irec js d
      else if irec.get_inode_disk_nlinks j ≠ irec.num_inode_references j then
        consEv (Event.visit agno (irec.ino_startnum + j))
          (seqRes
            (update_inode_nlinks g d
              (XFS_AGINO_TO_INO g.aginoBits agno (irec.ino_startnum + j))
              (irec.num_inode_references j))
            (phase7_slots g agno irec js))
      else
        consEv (Event.visit agno (irec.ino_startnum + j))
          (phase7_slots g agno irec js d) := by
  simp only [phase7_slots]
  split
  · rfl
  · split
    · cases update_inode_nlinks g d
          (XFS_AGINO_TO_INO g.aginoBits agno (irec.ino_startnum + j))
          (irec.num_inode_references j) with
      | none => rfl
      | some p =>
        obtain ⟨d₁, evs₁⟩ := p
        simp only [seqRes]
        cases phase7_slots g agno irec js d₁ with
        | none => rfl
        | some q => obtain ⟨d₂, evs₂⟩ := q; rfl
    · cases phase7_slots g agno irec js d with
      | none => rfl
      | some q => obtain ⟨d₂, evs₂⟩ := q; rfl

/-- One iteration of the sequential chunk loop, re-expressed. -/
theorem phase7_chunks_cons (g : Globals) (agno : Nat) (irec : InoTreeNode)
    (rest : List InoTreeNode) (d : Disk) :
    phase7_chunks g agno (irec :: rest) d =
      seqRes (phase7_slots g agno irec (List.range XFS_INODES_PER_CHUNK) d)
        (phase7_chunks g agno rest) := by
  simp only [phase7_chunks, seqRes]

/-- One iteration of the sequential AG loop, re-expressed. -/
theorem phase7_ags_cons (g : Globals) (snap : Snapshot) (a : Nat)
    (rest : List Nat) (d : Disk) :
    phase7_ags g snap (a :: rest) d =
      seqRes (phase7_chunks g a (snap.recs a) d) (phase7_ags g snap rest) := by
  simp only [phase7_ags, seqRes]

/-- One iteration of the concurrent chunk loop, re-expressed. -/
theorem phase7_alt_chunks_cons (g : Globals) (agno : Nat) (irec : InoTreeNode)
    (rest : List InoTreeNode) (d : Disk) :
    phase7_alt_chunks g agno (irec :: rest) d =
      seqRes (phase7_slots g agno irec (List.range XFS_INODES_PER_CHUNK) d)
        (fun d' => consEv (Event.progress agno XFS_INODES_PER_CHUNK)
          (phase7_alt_chunks g agno rest d')) := by
  simp only [phase7_alt_chunks, seqRes, phase7_alt_slots_eq]
  cases phase7_slots g agno irec (List.range XFS_INODES_PER_CHUNK) d with
  | none => rfl
  | some p =>
    obtain ⟨d₁, evs₁⟩ := p
    simp only [consEv]
    cases phase7_alt_chunks g agno rest d₁ with
    | none => rfl
    | some q => obtain ⟨d₂, evs₂⟩ := q; rfl

/-- One step of the task pool, re-expressed. -/
theorem phase7_alt_tasks_cons (g : Globals) (snap : Snapshot) (a : Nat)
    (rest : List Nat) (d : Disk) :
    phase7_alt_tasks g snap (a :: rest) d =
      seqRes (phase7_alt_function g snap a d) (phase7_alt_tasks g snap rest) := by
  simp only [phase7_alt_tasks, seqRes]

/-- Destructor for a completed `phase7` run. -/
theorem phase7_eq_some {g : Globals} {snap : Snapshot} {sched : List Nat}
    {d d' : Disk} {tr : List Event}
    (h : phase7 g snap sched d = some (d', tr)) :
    ∃ evs,
      (if g.do_prefetch then phase7_alt g snap sched d
       else phase7_ags g snap (List.range snap.glob_agcount) d) =
        some (d', evs) ∧
      tr = Event.logMsg g.no_modify :: evs := by
  simp only [phase7] at h
  cases hx : (if g.do_prefetch then phase7_alt g snap sched d
      else phase7_ags g snap (List.range snap.glob_agcount) d) with
  | none => rw [hx] at h; exact absurd h (by simp)
  | some p =>
    obtain ⟨e, evs⟩ := p
    rw [hx] at h
    simp only [Option.some.injEq, Prod.mk.injEq] at h
    exact ⟨evs, by rw [h.1], by rw [h.2]⟩

/-- Destructor for a completed `phase7_alt` run. -/
theorem phase7_alt_eq_some {g : Globals} {snap : Snapshot} {sched : List Nat}
    {d d' : Disk} {tr : List Event}
    (h : phase7_alt g snap sched d = some (d', tr)) :
    ∃ evs, phase7_alt_tasks g snap sched d = some (d', evs) ∧
      tr = Event.startMsg g.no_modify :: evs ++ [Event.finalRpt] := by
  simp only [phase7_alt] at h
  cases hx : phase7_alt_tasks g snap sched d with
  | none => rw [hx] at h; exact absurd h (by simp)
  | some p =>
    obtain ⟨e, evs⟩ := p
    rw [hx] at h
    simp only [Option.some.injEq, Prod.mk.injEq] at h
    exact ⟨evs, by rw [h.1], by rw [h.2]⟩

/-! ## The orphanage inode is never written, never committed -/

/-- No applier invocation ever commits a transaction on the orphanage
inode: a commit on another inode carries that inode's number, and an
invocation targeting the orphanage skips `set_nlinks`, so its `dirty`
flag stays 0 and its transaction is cancelled. -/
theorem set_nlinks_no_commit (nm : Bool) (v ino n : Nat) (dirty : Bool) :
    ∀ x, Event.commitSync x ∉ (set_nlinks nm v ino n dirty).2.2 := by
  intro x
  unfold set_nlinks
  split
  · simp
  · split
    · split <;> simp
    · simp

theorem update_no_orph_commit {g : Globals} {d e : Disk} {ino n : Nat}
    {evs : List Event}
    (h : update_inode_nlinks g d ino n = some (e, evs)) :
    Event.commitSync g.orphanage_ino ∉ evs := by
  by_cases hio : ino = g.orphanage_ino
  · subst hio
    cases hd : d g.orphanage_ino with
    | none =>
      simp only [update_inode_nlinks, hd] at h
      split at h
      · simp only [Option.some.injEq, Prod.mk.injEq] at h
        rw [← h.2]
        simp
      · exact absurd h (by simp)
    | some v =>
      simp only [update_inode_nlinks, hd] at h
      split at h
      · exact absurd rfl (by assumption)
      · rw [if_pos rfl] at h
        simp only [Option.some.injEq, Prod.mk.injEq] at h
        rw [← h.2]
        simp
  · cases hd : d ino with
    | none =>
      simp only [update_inode_nlinks, hd] at h
      split at h
      · simp only [Option.some.injEq, Prod.mk.injEq] at h
        rw [← h.2]
        simp
      · exact absurd h (by simp)
    | some v =>
      simp only [update_inode_nlinks, hd] at h
      split at h
      · -- `ino` is not the orphanage: `set_nlinks` runs
        have hx := set_nlinks_no_commit g.no_modify v ino n false
          g.orphanage_ino
        have hio' : ¬(g.orphanage_ino = ino) := fun hh => hio hh.symm
        split at h <;>
          simp only [Option.some.injEq, Prod.mk.injEq] at h <;>
          rw [← h.2] <;>
          simp [hx, hio']
      · -- impossible: the orphanage branch under `ino ≠ orphanage`
        rename_i hno
        exact absurd hio hno

/-- Slot-walk level: the orphanage link count is preserved and no
commit on the orphanage appears in the trace. -/
theorem phase7_slots_orph {g : Globals} {agno : Nat} {irec : InoTreeNode} :
    ∀ {js : List Nat} {d e : Disk} {tr : List Event},
      phase7_slots g agno irec js d = some (e, tr) →
      e g.orphanage_ino = d g.orphanage_ino ∧
        Event.commitSync g.orphanage_ino ∉ tr := by
  intro js
  induction js with
  | nil =>
    intro d e tr h
    simp only [phase7_slots, Option.some.injEq, Prod.mk.injEq] at h
    rw [← h.1, ← h.2]
    simp
  | cons j js ih =>
    intro d e tr h
    rw [phase7_slots_cons] at h
    split at h
    · exact ih h
    · split at h
      · obtain ⟨tr₀, h₁, rfl⟩ := consEv_eq_some.mp h
        obtain ⟨d₁, evs₁, evs₂, hu, hs, rfl⟩ := seqRes_eq_some.mp h₁
        obtain ⟨hps, hms⟩ := ih hs
        refine ⟨by rw [hps, update_orph_pres hu], ?_⟩
        simp only [List.mem_cons, List.mem_append]
        rintro (hc | hc | hc)
        · exact absurd hc (by simp)
        · exact update_no_orph_commit hu hc
        · exact hms hc
      · obtain ⟨tr₀, h₁, rfl⟩ := consEv_eq_some.mp h
        obtain ⟨hps, hms⟩ := ih h₁
        refine ⟨hps, ?_⟩
        simp only [List.mem_cons]
        rintro (hc | hc)
        · exact absurd hc (by simp)
        · exact hms hc

/-- Chunk-walk level orphanage preservation (sequential flavour). -/
theorem phase7_chunks_orph {g : Globals} {agno : Nat} :
    ∀ {chain : List InoTreeNode} {d e : Disk} {tr : List Event},
      phase7_chunks g agno chain d = some (e, tr) →
      e g.orphanage_ino = d g.orphanage_ino ∧
        Event.commitSync g.orphanage_ino ∉ tr := by
  intro chain
  induction chain with
  | nil =>
    intro d e tr h
    simp only [phase7_chunks, Option.some.injEq, Prod.mk.injEq] at h
    rw [← h.1, ← h.2]
    simp
  | cons irec rest ih =>
    intro d e tr h
    rw [phase7_chunks_cons] at h
    obtain ⟨d₁, evs₁, evs₂, hs, hr, rfl⟩ := seqRes_eq_some.mp h
    obtain ⟨hp₁, hm₁⟩ := phase7_slots_orph hs
    obtain ⟨hp₂, hm₂⟩ := ih hr
    refine ⟨by rw [hp₂, hp₁], ?_⟩
    simp only [List.mem_append]
    rintro (hc | hc)
    · exact hm₁ hc
    · exact hm₂ hc

/-- AG-walk level orphanage preservation (sequential flavour). -/
theorem phase7_ags_orph {g : Globals} {snap : Snapshot} :
    ∀ {ags : List Nat} {d e : Disk} {tr : List Event},
      phase7_ags g snap ags d = some (e, tr) →
      e g.orphanage_ino = d g.orphanage_ino ∧
        Event.commitSync g.orphanage_ino ∉ tr := by
  intro ags
  induction ags with
  | nil =>
    intro d e tr h
    simp only [phase7_ags, Option.some.injEq, Prod.mk.injEq] at h
    rw [← h.1, ← h.2]
    simp
  | cons a rest ih =>
    intro d e tr h
    rw [phase7_ags_cons] at h
    obtain ⟨d₁, evs₁, evs₂, hs, hr, rfl⟩ := seqRes_eq_some.mp h
    obtain ⟨hp₁, hm₁⟩ := phase7_chunks_orph hs
    obtain ⟨hp₂, hm₂⟩ := ih hr
    refine ⟨by rw [hp₂, hp₁], ?_⟩
    simp only [List.mem_append]
    rintro (hc | hc)
    · exact hm₁ hc
    · exact hm₂ hc

/-- Chunk-walk level orphanage preservation (concurrent flavour). -/
theorem phase7_alt_chunks_orph {g : Globals} {agno : Nat} :
    ∀ {chain : List InoTreeNode} {d e : Disk} {tr : List Event},
      phase7_alt_chunks g agno chain d = some (e, tr) →
      e g.orphanage_ino = d g.orphanage_ino ∧
        Event.commitSync g.orphanage_ino ∉ tr := by
  intro chain
  induction chain with
  | nil =>
    intro d e tr h
    simp only [phase7_alt_chunks, Option.some.injEq, Prod.mk.injEq] at h
    rw [← h.1, ← h.2]
    simp
  | cons irec rest ih =>
    intro d e tr h
    rw [phase7_alt_chunks_cons] at h
    obtain ⟨d₁, evs₁, evs₂, hs, hr, rfl⟩ := seqRes_eq_some.mp h
    obtain ⟨tr₀, hr', rfl⟩ := consEv_eq_some.mp hr
    obtain ⟨hp₁, hm₁⟩ := phase7_slots_orph hs
    obtain ⟨hp₂, hm₂⟩ := ih hr'
    refine ⟨by rw [hp₂, hp₁], ?_⟩
    simp only [List.mem_append, List.mem_cons]
    rintro (hc | hc | hc)
    · exact hm₁ hc
    · exact absurd hc (by simp)
    · exact hm₂ hc

/-- Task-pool level orphanage preservation. -/
theorem phase7_alt_tasks_orph {g : Globals} {snap : Snapshot} :
    ∀ {sched : List Nat} {d e : Disk} {tr : List Event},
      phase7_alt_tasks g snap sched d = some (e, tr) →
      e g.orphanage_ino = d g.orphanage_ino ∧
        Event.commitSync g.orphanage_ino ∉ tr := by
  intro sched
  induction sched with
  | nil =>
    intro d e tr h
    simp only [phase7_alt_tasks, Option.some.injEq, Prod.mk.injEq] at h
    rw [← h.1, ← h.2]
    simp
  | cons a rest ih =>
    intro d e tr h
    rw [phase7_alt_tasks_cons] at h
    obtain ⟨d₁, evs₁, evs₂, hs, hr, rfl⟩ := seqRes_eq_some.mp h
    obtain ⟨hp₁, hm₁⟩ := phase7_alt_chunks_orph hs
    obtain ⟨hp₂, hm₂⟩ := ih hr
    refine ⟨by rw [hp₂, hp₁], ?_⟩
    simp only [List.mem_append]
    rintro (hc | hc)
    · exact hm₁ hc
    · exact hm₂ hc

/-! ## Example configurations (used by the witnesses) -/

/-- A chunk with live slots 0-3 (3 mismatched: recorded on-disk 3 vs
computed 2) and slots 4-63 free. -/
def exInoRec : InoTreeNode where
  ino_startnum := 0
  is_inode_confirmed := fun _ => true
  is_inode_free := fun j => decide (4 ≤ j)
  is_inode_reached := fun _ => true
  is_inode_referenced := fun _ => true
  get_inode_disk_nlinks := fun j => if j = 1 then 3 else 1
  num_inode_references := fun j => if j = 1 then 2 else 1

def exSnap : Snapshot where
  glob_agcount := 1
  recs := fun a => if a = 0 then [exInoRec] else []

def exDisk : Disk := fun i => if i < 4 then some (if i = 1 then 3 else 1) else none

/-- Dry-run configuration. -/
def exGDry : Globals where
  no_modify := true
  orphanage_ino := 3
  do_prefetch := false
  aginoBits := 6
  removeLogRes := 128

/-- Mutation-mode configuration whose orphanage inode is absolute inode 2
(AG 0, AG-relative 2). -/
def exGMut : Globals where
  no_modify := false
  orphanage_ino := 2
  do_prefetch := false
  aginoBits := 6
  removeLogRes := 128

/-- A chunk whose only live slot is slot 2 — the orphanage — with a
mismatch (on-disk 5 vs computed 2). -/
def exOrphRec : InoTreeNode where
  ino_startnum := 0
  is_inode_confirmed := fun _ => true
  is_inode_free := fun j => decide (j ≠ 2)
  is_inode_reached := fun _ => true
  is_inode_referenced := fun _ => true
  get_inode_disk_nlinks := fun _ => 5
  num_inode_references := fun _ => 2

def exSnapOrph : Snapshot where
  glob_agcount := 1
  recs := fun a => if a = 0 then [exOrphRec] else []

def exOrphDisk : Disk := fun i => if i = 2 then some 5 else none

/-! ## Claim C1 -/

/-- **C1** (frame effect, dry run): for every inode, running the
reconciliation pass in dry-run (`no_modify`) mode leaves the on-disk link
count unchanged, regardless of mismatches found: the pass always
completes and returns the input disk itself, with no correction performed
and no transaction committed — under either execution strategy. -/
theorem C1_dryrun_no_mutation (g : Globals) (snap : Snapshot)
    (sched : List Nat) (d : Disk) (hnm : g.no_modify = true) :
    ∃ tr, phase7 g snap sched d = some (d, tr) ∧
      corrections tr = [] ∧ commitInos tr = [] := by
  cases hpf : g.do_prefetch with
  | false =>
    obtain ⟨evs, h, hc, hm⟩ :=
      phase7_ags_dryrun hnm snap (List.range snap.glob_agcount) d
    refine ⟨Event.logMsg g.no_modify :: evs, ?_, ?_, ?_⟩
    · simp [phase7, hpf, h]
    · simpa [corrections] using hc
    · simpa [commitInos] using hm
  | true =>
    obtain ⟨evs, h, hc, hm⟩ := phase7_alt_tasks_dryrun hnm snap sched d
    refine ⟨Event.logMsg g.no_modify ::
      (Event.startMsg g.no_modify :: evs ++ [Event.finalRpt]), ?_, ?_, ?_⟩
    · simp [phase7, phase7_alt, hpf, h]
    · simp only [corrections, List.filterMap_cons, List.filterMap_append]
        at hc ⊢
      simp [hc]
    · simp only [commitInos, List.filterMap_cons, List.filterMap_append]
        at hm ⊢
      simp [hm]

theorem C1_witness :
    exGDry.no_modify = true ∧
    (∃ tr, phase7 exGDry exSnap [0] exDisk = some (exDisk, tr) ∧
      corrections tr = [] ∧ commitInos tr = []) :=
  ⟨rfl, C1_dryrun_no_mutation exGDry exSnap [0] exDisk rfl⟩

/-! ## Claim C2 -/

/-- **C2** (orphanage exclusion): for the reserved orphanage inode
identity, the on-disk link count is never written by this phase, and no
transaction is ever committed for it, even when its on-disk value differs
from its computed reference count — `update_inode_nlinks` skips
`set_nlinks` when `ino == orphanage_ino`, so `dirty` stays 0. -/
theorem C2_orphanage_excluded (g : Globals) (snap : Snapshot)
    (sched : List Nat) (d d' : Disk) (tr : List Event)
    (h : phase7 g snap sched d = some (d', tr)) :
    d' g.orphanage_ino = d g.orphanage_ino ∧
      Event.commitSync g.orphanage_ino ∉ tr := by
  obtain ⟨evs, hin, rfl⟩ := phase7_eq_some h
  cases hpf : g.do_prefetch with
  | false =>
    rw [if_neg (by simp [hpf])] at hin
    obtain ⟨hp, hm⟩ := phase7_ags_orph hin
    refine ⟨hp, ?_⟩
    simp only [List.mem_cons]
    rintro (hc | hc)
    · exact absurd hc (by simp)
    · exact hm hc
  | true =>
    rw [if_pos (by simp [hpf])] at hin
    obtain ⟨evs₂, htk, rfl⟩ := phase7_alt_eq_some hin
    obtain ⟨hp, hm⟩ := phase7_alt_tasks_orph htk
    refine ⟨hp, ?_⟩
    intro hc
    exact hm (by simpa using hc)

theorem C2_witness :
    exOrphDisk exGMut.orphanage_ino = exOrphDisk exGMut.orphanage_ino ∧
      Event.commitSync exGMut.orphanage_ino ∉
        [Event.logMsg false, Event.visit 0 2, Event.reserve 10 128,
          Event.iput 2, Event.cancel 2] :=
  C2_orphanage_excluded exGMut exSnapOrph [0] exOrphDisk exOrphDisk
    [Event.logMsg false, Event.visit 0 2, Event.reserve 10 128,
      Event.iput 2, Event.cancel 2] rfl

/-! ## More `set_nlinks` trace facts -/

theorem set_nlinks_no_cancel_iput (nm : Bool) (v ino n : Nat) (dirty : Bool) :
    ∀ x, Event.cancel x ∉ (set_nlinks nm v ino n dirty).2.2 ∧
      Event.iput x ∉ (set_nlinks nm v ino n dirty).2.2 := by
  intro x
  unfold set_nlinks
  split
  · simp
  · split
    · split <;> simp
    · simp

/-- The `dirty` flag only becomes set when a real overwrite happened:
mutation mode, differing counts, and the stored field now holds the
target. -/
theorem set_nlinks_dirty_true {nm : Bool} {v ino n : Nat}
    (h : (set_nlinks nm v ino n false).2.1 = true) :
    nm = false ∧ v ≠ n ∧ (set_nlinks nm v ino n false).1 = n := by
  unfold set_nlinks at h ⊢
  split at h
  · simp at h
  · rename_i hv
    split at h
    · rename_i hnm
      refine ⟨hnm, hv, ?_⟩
      rw [if_neg hv, if_pos hnm]
    · simp at h

/-! ## Claim C4 -/

/-- **C4** (inode resolution failure): when `libxfs_trans_iget` cannot map
the inode of a live mismatched slot, the Correction Applier is fatal in
mutation mode (`do_error`: the applier, hence the whole slot walk,
returns the aborted-run result), while in dry-run mode it emits the
`can't compare link counts` warning, leaves the disk untouched, and
returns, so the walk continues with the remaining slots. -/
theorem C4_resolution_failure (g : Globals) (d : Disk) (agno : Nat)
    (irec : InoTreeNode) (j : Nat) (js : List Nat)
    (hino : d (XFS_AGINO_TO_INO g.aginoBits agno (irec.ino_startnum + j)) =
      none)
    (hf : irec.is_inode_free j = false)
    (hms : irec.get_inode_disk_nlinks j ≠ irec.num_inode_references j) :
    (g.no_modify = false →
      update_inode_nlinks g d
        (XFS_AGINO_TO_INO g.aginoBits agno (irec.ino_startnum + j))
        (irec.num_inode_references j) = none ∧
      phase7_slots g agno irec (j :: js) d = none) ∧
    (g.no_modify = true →
      ∃ evs', phase7_slots g agno irec js d = some (d, evs') ∧
        phase7_slots g agno irec (j :: js) d =
          some (d, Event.visit agno (irec.ino_startnum + j) ::
            Event.reserve 0 g.removeLogRes ::
            Event.warnNoMap
              (XFS_AGINO_TO_INO g.aginoBits agno (irec.ino_startnum + j)) ::
            evs')) := by
  constructor
  · intro hnm
    have hu : update_inode_nlinks g d
        (XFS_AGINO_TO_INO g.aginoBits agno (irec.ino_startnum + j))
        (irec.num_inode_references j) = none := by
      simp [update_inode_nlinks, hino, hnm]
    refine ⟨hu, ?_⟩
    rw [phase7_slots_cons, if_neg (by simp [hf]), if_pos hms, hu]
    simp [seqRes, consEv]
  · intro hnm
    obtain ⟨evs', h', _, _⟩ := phase7_slots_dryrun hnm agno irec js d
    have hu : update_inode_nlinks g d
        (XFS_AGINO_TO_INO g.aginoBits agno (irec.ino_startnum + j))
        (irec.num_inode_references j) =
        some (d, [Event.reserve 0 g.removeLogRes,
          Event.warnNoMap
            (XFS_AGINO_TO_INO g.aginoBits agno (irec.ino_startnum + j))]) := by
      simp [update_inode_nlinks, hino, hnm]
    refine ⟨evs', h', ?_⟩
    rw [phase7_slots_cons, if_neg (by simp [hf]), if_pos hms, hu]
    simp [seqRes, consEv, h']

/-- A chunk whose only live slot (slot 1) is mismatched; no inode of the
volume is mappable. -/
def exNoMapRec : InoTreeNode where
  ino_startnum := 0
  is_inode_confirmed := fun _ => true
  is_inode_free := fun j => decide (j ≠ 1)
  is_inode_reached := fun _ => true
  is_inode_referenced := fun _ => true
  get_inode_disk_nlinks := fun _ => 3
  num_inode_references := fun _ => 2

def exNoneDisk : Disk := fun _ => none

theorem C4_witness :
    (exGMut.no_modify = false →
      update_inode_nlinks exGMut exNoneDisk
        (XFS_AGINO_TO_INO exGMut.aginoBits 0 (exNoMapRec.ino_startnum + 1))
        (exNoMapRec.num_inode_references 1) = none ∧
      phase7_slots exGMut 0 exNoMapRec (1 :: []) exNoneDisk = none) ∧
    (exGMut.no_modify = true →
      ∃ evs', phase7_slots exGMut 0 exNoMapRec [] exNoneDisk =
          some (exNoneDisk, evs') ∧
        phase7_slots exGMut 0 exNoMapRec (1 :: []) exNoneDisk =
          some (exNoneDisk, Event.visit 0 (exNoMapRec.ino_startnum + 1) ::
            Event.reserve 0 exGMut.removeLogRes ::
            Event.warnNoMap
              (XFS_AGINO_TO_INO exGMut.aginoBits 0
                (exNoMapRec.ino_startnum + 1)) ::
            evs')) :=
  C4_resolution_failure exGMut exNoneDisk 0 exNoMapRec 1 [] rfl rfl
    (by decide)

/-! ## Claim C5 -/

/-- **C5**: when no mutation is made — the loaded inode's `di_nlink`
already equals the target, so `dirty` stays 0 — the applier releases the
inode (`iput`) and cancels the transaction without committing; and a
synchronous commit happens only together with a logged inode and an
actual overwrite. -/
theorem C5_cancel_or_commit (g : Globals) (d : Disk) (ino n : Nat) :
    (∀ v, d ino = some v → v = n →
      update_inode_nlinks g d ino n =
        some (d, [Event.reserve (if g.no_modify then 0 else 10)
          g.removeLogRes, Event.iput ino, Event.cancel ino])) ∧
    (∀ e evs, update_inode_nlinks g d ino n = some (e, evs) →
      Event.commitSync ino ∈ evs →
      Event.logInode ino ∈ evs ∧ Event.cancel ino ∉ evs ∧
        Event.iput ino ∉ evs ∧ e ino = some n ∧ d ino ≠ some n) := by
  constructor
  · intro v hd hv
    subst hv
    by_cases ho : ino ≠ g.orphanage_ino <;>
      simp [update_inode_nlinks, hd, ho, set_nlinks]
  · intro e evs h hc
    cases hd : d ino with
    | none =>
      simp only [update_inode_nlinks, hd] at h
      split at h
      · simp only [Option.some.injEq, Prod.mk.injEq] at h
        rw [← h.2] at hc
        simp at hc
      · exact absurd h (by simp)
    | some v =>
      simp only [update_inode_nlinks, hd] at h
      split at h
      · split at h
        · -- cancel path: there is no commit event, contradiction
          simp only [Option.some.injEq, Prod.mk.injEq] at h
          rw [← h.2] at hc
          exact absurd (by simpa using hc)
            (set_nlinks_no_commit g.no_modify v ino n false ino)
        · -- commit path
          rename_i hdirty
          have hbt : (set_nlinks g.no_modify v ino n false).2.1 = true := by
            cases hb : (set_nlinks g.no_modify v ino n false).2.1
            · exact absurd hb hdirty
            · rfl
          obtain ⟨hnm, hvn, hval⟩ := set_nlinks_dirty_true hbt
          simp only [Option.some.injEq, Prod.mk.injEq] at h
          refine ⟨?_, ?_, ?_, ?_, ?_⟩
          · rw [← h.2]
            simp
          · rw [← h.2]
            intro hcm
            exact (set_nlinks_no_cancel_iput g.no_modify v ino n false ino).1
              (by simpa using hcm)
          · rw [← h.2]
            intro hcm
            exact (set_nlinks_no_cancel_iput g.no_modify v ino n false ino).2
              (by simpa using hcm)
          · rw [← h.1]
            simp [hval]
          · simpa using hvn
      · split at h
        · simp only [Option.some.injEq, Prod.mk.injEq] at h
          rw [← h.2] at hc
          simp at hc
        · exact absurd rfl (by assumption)

theorem C5_witness :
    update_inode_nlinks exGMut exOrphDisk 2 5 =
      some (exOrphDisk, [Event.reserve (if exGMut.no_modify then 0 else 10)
        exGMut.removeLogRes, Event.iput 2, Event.cancel 2]) :=
  (C5_cancel_or_commit exGMut exOrphDisk 2 5).1 5 rfl rfl

/-! ## Claim C6 -/

/-- **C6**: every completed applier invocation opens its transaction with
the reservation call whose block-count argument is 0 in dry-run mode and
10 in mutation mode, and whose log-space argument is the fixed
`XFS_REMOVE_LOG_RES(mp)` — that reservation is the first event of the
invocation. -/
theorem C6_reservation (g : Globals) (d : Disk) (ino n : Nat) (e : Disk)
    (evs : List Event)
    (h : update_inode_nlinks g d ino n = some (e, evs)) :
    evs.head? = some (Event.reserve (if g.no_modify then 0 else 10)
      g.removeLogRes) := by
  cases hd : d ino with
  | none =>
    simp only [update_inode_nlinks, hd] at h
    split at h
    · rename_i hnm
      simp only [Option.some.injEq, Prod.mk.injEq] at h
      rw [← h.2]
      simp [hnm]
    · exact absurd h (by simp)
  | some v =>
    simp only [update_inode_nlinks, hd] at h
    split at h <;> split at h <;>
      simp only [Option.some.injEq, Prod.mk.injEq] at h <;>
      rw [← h.2] <;> rfl

theorem C6_witness :
    ([Event.reserve 10 128, Event.iput 2, Event.cancel 2] :
        List Event).head? =
      some (Event.reserve (if exGMut.no_modify then 0 else 10)
        exGMut.removeLogRes) :=
  C6_reservation exGMut exOrphDisk 2 2 exOrphDisk
    [Event.reserve 10 128, Event.iput 2, Event.cancel 2] rfl

/-! ## Claim C7 -/

/-- **C7** (format-generation overflow): a target link count above the
legacy (`XFS_MAXLINK_1`) range is not an error: in mutation mode, on a
mismatch, `set_nlinks` emits the ordinary reset warning plus the
version-2 conversion warning, and the correction still proceeds —
`di_nlink` is overwritten with the target and the dirty flag is set. -/
theorem C7_overflow_warning (nm : Bool) (di_nlink ino nrefs : Nat)
    (dirty : Bool) (hnm : nm = false) (hne : di_nlink ≠ nrefs)
    (hover : XFS_MAXLINK_1 < nrefs) :
    set_nlinks nm di_nlink ino nrefs dirty =
      (nrefs, true, [Event.warnReset ino di_nlink nrefs,
        Event.warnOverflowV1 nrefs ino]) := by
  subst hnm
  simp [set_nlinks, hne, hover]

theorem C7_witness :
    (false = false) ∧ (3 ≠ 70000) ∧ XFS_MAXLINK_1 < 70000 ∧
    set_nlinks false 3 7 70000 false =
      (70000, true, [Event.warnReset 7 3 70000,
        Event.warnOverflowV1 70000 7]) :=
  ⟨rfl, by decide, by decide,
    C7_overflow_warning false 3 7 70000 false rfl (by decide) (by decide)⟩

/-! ## Claim C10: the orphanage check lives in the applier, not the walker -/

/-- An applier invocation that targets the mappable orphanage inode
performs the whole transaction lifecycle and always ends in
release-and-cancel. -/
theorem update_orph_cancel {g : Globals} {d : Disk} {v : Nat} (n : Nat)
    (hd : d g.orphanage_ino = some v) :
    update_inode_nlinks g d g.orphanage_ino n =
      some (d, [Event.reserve (if g.no_modify then 0 else 10)
        g.removeLogRes, Event.iput g.orphanage_ino,
        Event.cancel g.orphanage_ino]) := by
  simp [update_inode_nlinks, hd]

/-- If some visited slot of the walk is a live mismatched slot whose
inode identity is the (mappable) orphanage, the trace contains the
release and the cancel of the orphanage's transaction. -/
theorem phase7_slots_orph_cancel {g : Globals} {agno : Nat}
    {irec : InoTreeNode} :
    ∀ {js : List Nat} {d e : Disk} {tr : List Event} {j v : Nat},
      phase7_slots g agno irec js d = some (e, tr) →
      j ∈ js →
      irec.is_inode_free j = false →
      irec.get_inode_disk_nlinks j ≠ irec.num_inode_references j →
      XFS_AGINO_TO_INO g.aginoBits agno (irec.ino_startnum + j) =
        g.orphanage_ino →
      d g.orphanage_ino = some v →
      Event.iput g.orphanage_ino ∈ tr ∧
        Event.cancel g.orphanage_ino ∈ tr := by
  intro js
  induction js with
  | nil =>
    intro d e tr j v _ hj
    exact absurd hj (by simp)
  | cons j0 js ih =>
    intro d e tr j v h hj hf hms hino hdov
    rw [phase7_slots_cons] at h
    split at h
    · rename_i hfree
      rcases List.mem_cons.mp hj with rfl | hj'
      · rw [hfree] at hf
        exact absurd hf (by simp)
      · exact ih h hj' hf hms hino hdov
    · split at h
      · obtain ⟨tr₀, h₁, rfl⟩ := consEv_eq_some.mp h
        obtain ⟨d₁, evs₁, evs₂, hu, hs, rfl⟩ := seqRes_eq_some.mp h₁
        rcases List.mem_cons.mp hj with rfl | hj'
        · rw [hino, update_orph_cancel (irec.num_inode_references j) hdov]
            at hu
          simp only [Option.some.injEq, Prod.mk.injEq] at hu
          rw [← hu.2]
          simp
        · have hpre : d₁ g.orphanage_ino = some v := by
            rw [update_orph_pres hu, hdov]
          obtain ⟨h1, h2⟩ := ih hs hj' hf hms hino hpre
          constructor <;> simp only [List.mem_cons, List.mem_append] <;>
            right <;> right
          · exact h1
          · exact h2
      · rename_i hnomis
        obtain ⟨tr₀, h₁, rfl⟩ := consEv_eq_some.mp h
        rcases List.mem_cons.mp hj with rfl | hj'
        · exact absurd hms hnomis
        · obtain ⟨h1, h2⟩ := ih h₁ hj' hf hms hino hdov
          exact ⟨List.mem_cons_of_mem _ h1, List.mem_cons_of_mem _ h2⟩

/-- Chunk-chain version of `phase7_slots_orph_cancel`. -/
theorem phase7_chunks_orph_cancel {g : Globals} {agno : Nat} :
    ∀ {chain : List InoTreeNode} {d e : Disk} {tr : List Event}
      {irec : InoTreeNode} {j v : Nat},
      phase7_chunks g agno chain d = some (e, tr) →
      irec ∈ chain →
      j < XFS_INODES_PER_CHUNK →
      irec.is_inode_free j = false →
      irec.get_inode_disk_nlinks j ≠ irec.num_inode_references j →
      XFS_AGINO_TO_INO g.aginoBits agno (irec.ino_startnum + j) =
        g.orphanage_ino →
      d g.orphanage_ino = some v →
      Event.iput g.orphanage_ino ∈ tr ∧
        Event.cancel g.orphanage_ino ∈ tr := by
  intro chain
  induction chain with
  | nil =>
    intro d e tr irec j v _ hrec
    exact absurd hrec (by simp)
  | cons r rest ih =>
    intro d e tr irec j v h hrec hj hf hms hino hdov
    rw [phase7_chunks_cons] at h
    obtain ⟨d₁, evs₁, evs₂, hs, hr, rfl⟩ := seqRes_eq_some.mp h
    rcases List.mem_cons.mp hrec with rfl | hrec'
    · obtain ⟨h1, h2⟩ := phase7_slots_orph_cancel hs
        (List.mem_range.mpr hj) hf hms hino hdov
      exact ⟨List.mem_append_left _ h1, List.mem_append_left _ h2⟩
    · have hpre : d₁ g.orphanage_ino = some v := by
        rw [(phase7_slots_orph hs).1, hdov]
      obtain ⟨h1, h2⟩ := ih hr hrec' hj hf hms hino hpre
      exact ⟨List.mem_append_right _ h1, List.mem_append_right _ h2⟩

/-- AG-loop version of `phase7_slots_orph_cancel`. -/
theorem phase7_ags_orph_cancel {g : Globals} {snap : Snapshot} :
    ∀ {ags : List Nat} {d e : Disk} {tr : List Event}
      {a : Nat} {irec : InoTreeNode} {j v : Nat},
      phase7_ags g snap ags d = some (e, tr) →
      a ∈ ags →
      irec ∈ snap.recs a →
      j < XFS_INODES_PER_CHUNK →
      irec.is_inode_free j = false →
      irec.get_inode_disk_nlinks j ≠ irec.num_inode_references j →
      XFS_AGINO_TO_INO g.aginoBits a (irec.ino_startnum + j) =
        g.orphanage_ino →
      d g.orphanage_ino = some v →
      Event.iput g.orphanage_ino ∈ tr ∧
        Event.cancel g.orphanage_ino ∈ tr := by
  intro ags
  induction ags with
  | nil =>
    intro d e tr a irec j v _ ha
    exact absurd ha (by simp)
  | cons a0 rest ih =>
    intro d e tr a irec j v h ha hrec hj hf hms hino hdov
    rw [phase7_ags_cons] at h
    obtain ⟨d₁, evs₁, evs₂, hs, hr, rfl⟩ := seqRes_eq_some.mp h
    rcases List.mem_cons.mp ha with rfl | ha'
    · obtain ⟨h1, h2⟩ := phase7_chunks_orph_cancel hs hrec hj hf hms hino hdov
      exact ⟨List.mem_append_left _ h1, List.mem_append_left _ h2⟩
    · have hpre : d₁ g.orphanage_ino = some v := by
        rw [(phase7_chunks_orph hs).1, hdov]
      obtain ⟨h1, h2⟩ := ih hr ha' hrec hj hf hms hino hpre
      exact ⟨List.mem_append_right _ h1, List.mem_append_right _ h2⟩

/-- **C10**: the orphanage exclusion is enforced inside the Correction
Applier, not the Reconciliation Walker: for a live mismatched slot whose
identity is the (mappable) orphanage inode, the walker still invokes
`update_inode_nlinks` — its transaction lifecycle is in the trace — but
the comparison/mutation are skipped, so the inode is released (`iput`),
the transaction is always cancelled, never committed for the orphanage,
and the orphanage's on-disk link count is unchanged at the end of the
pass. -/
theorem C10_orphanage_check_in_applier (g : Globals) (snap : Snapshot)
    (sched : List Nat) (d d' : Disk) (tr : List Event)
    (hpf : g.do_prefetch = false)
    (h : phase7 g snap sched d = some (d', tr))
    (a : Nat) (ha : a ∈ List.range snap.glob_agcount)
    (irec : InoTreeNode) (hrec : irec ∈ snap.recs a)
    (j : Nat) (hj : j < XFS_INODES_PER_CHUNK)
    (hf : irec.is_inode_free j = false)
    (hms : irec.get_inode_disk_nlinks j ≠ irec.num_inode_references j)
    (hino : XFS_AGINO_TO_INO g.aginoBits a (irec.ino_startnum + j) =
      g.orphanage_ino)
    (v : Nat) (hdov : d g.orphanage_ino = some v) :
    Event.iput g.orphanage_ino ∈ tr ∧ Event.cancel g.orphanage_ino ∈ tr ∧
      Event.commitSync g.orphanage_ino ∉ tr ∧
      d' g.orphanage_ino = d g.orphanage_ino := by
  have hall := C2_orphanage_excluded g snap sched d d' tr h
  obtain ⟨evs, hin, rfl⟩ := phase7_eq_some h
  rw [if_neg (by simp [hpf])] at hin
  obtain ⟨h1, h2⟩ := phase7_ags_orph_cancel hin ha hrec hj hf hms hino hdov
  exact ⟨List.mem_cons_of_mem _ h1, List.mem_cons_of_mem _ h2,
    hall.2, hall.1⟩

theorem C10_witness :
    Event.iput exGMut.orphanage_ino ∈
      ([Event.logMsg false, Event.visit 0 2, Event.reserve 10 128,
        Event.iput 2, Event.cancel 2] : List Event) ∧
    Event.cancel exGMut.orphanage_ino ∈
      ([Event.logMsg false, Event.visit 0 2, Event.reserve 10 128,
        Event.iput 2, Event.cancel 2] : List Event) ∧
    Event.commitSync exGMut.orphanage_ino ∉
      ([Event.logMsg false, Event.visit 0 2, Event.reserve 10 128,
        Event.iput 2, Event.cancel 2] : List Event) ∧
    exOrphDisk exGMut.orphanage_ino = exOrphDisk exGMut.orphanage_ino :=
  C10_orphanage_check_in_applier exGMut exSnapOrph [0] exOrphDisk exOrphDisk
    [Event.logMsg false, Event.visit 0 2, Event.reserve 10 128,
      Event.iput 2, Event.cancel 2] rfl rfl 0 (by decide) exOrphRec
    (by simp [exSnapOrph]) 2 (by decide) rfl (by decide) (by decide) 5 rfl

/-! ## Claim C9: partition coverage of the walk -/

theorem set_nlinks_no_visit (nm : Bool) (v ino n : Nat) (dirty : Bool) :
    visitedPairs (set_nlinks nm v ino n dirty).2.2 = [] := by
  unfold set_nlinks
  split
  · simp [visitedPairs]
  · split
    · split <;> simp [visitedPairs]
    · simp [visitedPairs]

/-- The applier emits no ghost visit marker — those belong to the
walker. -/
theorem update_no_visit {g : Globals} {d e : Disk} {ino n : Nat}
    {evs : List Event}
    (h : update_inode_nlinks g d ino n = some (e, evs)) :
    visitedPairs evs = [] := by
  cases hd : d ino with
  | none =>
    simp only [update_inode_nlinks, hd] at h
    split at h
    · simp only [Option.some.injEq, Prod.mk.injEq] at h
      rw [← h.2]
      simp [visitedPairs]
    · exact absurd h (by simp)
  | some v =>
    simp only [update_inode_nlinks, hd] at h
    have hx := set_nlinks_no_visit g.no_modify v ino n false
    simp only [visitedPairs] at hx
    split at h
    · split at h <;>
        simp only [Option.some.injEq, Prod.mk.injEq] at h <;>
        rw [← h.2] <;>
        simp [visitedPairs, List.filterMap_append, hx]
    · split at h <;>
        simp only [Option.some.injEq, Prod.mk.injEq] at h <;>
        rw [← h.2] <;>
        simp [visitedPairs]

/-- The slots the walker visits in one chunk suffix: exactly the
non-free ones, in order. -/
theorem phase7_slots_visited {g : Globals} {agno : Nat}
    {irec : InoTreeNode} :
    ∀ {js : List Nat} {d e : Disk} {tr : List Event},
      phase7_slots g agno irec js d = some (e, tr) →
      visitedPairs tr = js.filterMap (fun j =>
        if irec.is_inode_free j then none
        else some (agno, irec.ino_startnum + j)) := by
  intro js
  induction js with
  | nil =>
    intro d e tr h
    simp only [phase7_slots, Option.some.injEq, Prod.mk.injEq] at h
    rw [← h.2]
    rfl
  | cons j js ih =>
    intro d e tr h
    rw [phase7_slots_cons] at h
    split at h
    · rename_i hfree
      rw [ih h]
      simp [hfree]
    · rename_i hfree
      split at h
      · obtain ⟨tr₀, h₁, rfl⟩ := consEv_eq_some.mp h
        obtain ⟨d₁, evs₁, evs₂, hu, hs, rfl⟩ := seqRes_eq_some.mp h₁
        have h0 := update_no_visit hu
        have h2 := ih hs
        simp only [visitedPairs] at h0 h2
        simp [visitedPairs, List.filterMap_append, h0, h2, hfree]
      · obtain ⟨tr₀, h₁, rfl⟩ := consEv_eq_some.mp h
        have h2 := ih h₁
        simp only [visitedPairs] at h2
        simp [visitedPairs, h2, hfree]

/-- The live slots of one chunk record, as `(AG, AG-relative ino)`
pairs. -/
def chunkLiveSlots (agno : Nat) (irec : InoTreeNode) : List (Nat × Nat) :=
  (List.range XFS_INODES_PER_CHUNK).filterMap fun j =>
    if irec.is_inode_free j then none
    else some (agno, irec.ino_startnum + j)

/-- The live slots of one AG's whole chunk chain. -/
def agLiveSlots (snap : Snapshot) (a : Nat) : List (Nat × Nat) :=
  ((snap.recs a).map (chunkLiveSlots a)).flatten

theorem mem_chunkLiveSlots {a : Nat} {irec : InoTreeNode} {p : Nat × Nat} :
    p ∈ chunkLiveSlots a irec ↔ ∃ j < XFS_INODES_PER_CHUNK,
      irec.is_inode_free j = false ∧ p = (a, irec.ino_startnum + j) := by
  simp only [chunkLiveSlots, List.mem_filterMap, List.mem_range]
  constructor
  · rintro ⟨j, hj, hf⟩
    split at hf
    · exact absurd hf (by simp)
    · rename_i hfree
      simp only [Option.some.injEq] at hf
      exact ⟨j, hj, by simpa using hfree, hf.symm⟩
  · rintro ⟨j, hj, hfree, rfl⟩
    exact ⟨j, hj, by simp [hfree]⟩

theorem chunkLiveSlots_nodup (a : Nat) (irec : InoTreeNode) :
    (chunkLiveSlots a irec).Nodup := by
  refine List.Nodup.filterMap ?_ (List.nodup_range _)
  intro j j' p hp hp'
  split at hp
  · exact absurd hp (by simp)
  · split at hp'
    · exact absurd hp' (by simp)
    · simp only [Option.mem_def, Option.some.injEq] at hp hp'
      rw [← hp] at hp'
      simp only [Prod.mk.injEq] at hp'
      omega

theorem agLiveSlots_fst {snap : Snapshot} {a : Nat} {p : Nat × Nat}
    (hp : p ∈ agLiveSlots snap a) : p.1 = a := by
  simp only [agLiveSlots, List.mem_flatten, List.mem_map] at hp
  obtain ⟨L, ⟨irec, _, rfl⟩, hp⟩ := hp
  obtain ⟨j, _, _, rfl⟩ := mem_chunkLiveSlots.mp hp
  rfl

theorem phase7_chunks_visited {g : Globals} {agno : Nat} :
    ∀ {chain : List InoTreeNode} {d e : Disk} {tr : List Event},
      phase7_chunks g agno chain d = some (e, tr) →
      visitedPairs tr = (chain.map (chunkLiveSlots agno)).flatten := by
  intro chain
  induction chain with
  | nil =>
    intro d e tr h
    simp only [phase7_chunks, Option.some.injEq, Prod.mk.injEq] at h
    rw [← h.2]
    rfl
  | cons irec rest ih =>
    intro d e tr h
    rw [phase7_chunks_cons] at h
    obtain ⟨d₁, evs₁, evs₂, hs, hr, rfl⟩ := seqRes_eq_some.mp h
    rw [visitedPairs_append, phase7_slots_visited hs, ih hr]
    rfl

theorem phase7_ags_visited {g : Globals} {snap : Snapshot} :
    ∀ {ags : List Nat} {d e : Disk} {tr : List Event},
      phase7_ags g snap ags d = some (e, tr) →
      visitedPairs tr = (ags.map (agLiveSlots snap)).flatten := by
  intro ags
  induction ags with
  | nil =>
    intro d e tr h
    simp only [phase7_ags, Option.some.injEq, Prod.mk.injEq] at h
    rw [← h.2]
    rfl
  | cons a rest ih =>
    intro d e tr h
    rw [phase7_ags_cons] at h
    obtain ⟨d₁, evs₁, evs₂, hs, hr, rfl⟩ := seqRes_eq_some.mp h
    rw [visitedPairs_append, phase7_chunks_visited hs, ih hr]
    rfl

/-- **C9** (partition coverage): across one full (sequential)
reconciliation pass, the set of `(AG, slot)` pairs the walker visits is
exactly the set of live (non-free), confirmed slots reported by the inode
record source — no slot is visited twice and none is omitted.  The
"confirmed" hypothesis is the upstream precondition that the code
asserts for every slot it examines; the sortedness hypothesis is the
AVL-order in which `findfirst_inode_rec`/`next_ino_rec` deliver the
chunk records. -/
theorem C9_partition_coverage (g : Globals) (snap : Snapshot)
    (sched : List Nat) (d d' : Disk) (tr : List Event)
    (hpf : g.do_prefetch = false)
    (h : phase7 g snap sched d = some (d', tr))
    (hconf : ∀ a < snap.glob_agcount, ∀ irec ∈ snap.recs a,
      ∀ j < XFS_INODES_PER_CHUNK, irec.is_inode_confirmed j = true)
    (hsort : ∀ a < snap.glob_agcount,
      List.Pairwise (fun r r' : InoTreeNode =>
        r.ino_startnum + XFS_INODES_PER_CHUNK ≤ r'.ino_startnum)
        (snap.recs a)) :
    (∀ p : Nat × Nat, p ∈ visitedPairs tr ↔
      ∃ a < snap.glob_agcount, ∃ irec ∈ snap.recs a,
        ∃ j < XFS_INODES_PER_CHUNK,
          irec.is_inode_confirmed j = true ∧
          irec.is_inode_free j = false ∧
          p = (a, irec.ino_startnum + j)) ∧
    (visitedPairs tr).Nodup := by
  obtain ⟨evs, hin, rfl⟩ := phase7_eq_some h
  rw [if_neg (by simp [hpf])] at hin
  have hchar : visitedPairs (Event.logMsg g.no_modify :: evs) =
      ((List.range snap.glob_agcount).map (agLiveSlots snap)).flatten := by
    have := phase7_ags_visited hin
    simp only [visitedPairs] at this ⊢
    simpa using this
  constructor
  · intro p
    rw [hchar]
    simp only [List.mem_flatten, List.mem_map, List.mem_range]
    constructor
    · rintro ⟨L, ⟨a, ha, rfl⟩, hp⟩
      simp only [agLiveSlots, List.mem_flatten, List.mem_map] at hp
      obtain ⟨L', ⟨irec, hirec, rfl⟩, hp⟩ := hp
      obtain ⟨j, hj, hfree, rfl⟩ := mem_chunkLiveSlots.mp hp
      exact ⟨a, ha, irec, hirec, j, hj, hconf a ha irec hirec j hj,
        hfree, rfl⟩
    · rintro ⟨a, ha, irec, hirec, j, hj, _, hfree, rfl⟩
      refine ⟨agLiveSlots snap a, ⟨a, ha, rfl⟩, ?_⟩
      simp only [agLiveSlots, List.mem_flatten, List.mem_map]
      exact ⟨chunkLiveSlots a irec, ⟨irec, hirec, rfl⟩,
        mem_chunkLiveSlots.mpr ⟨j, hj, hfree, rfl⟩⟩
  · rw [hchar, List.nodup_flatten]
    constructor
    · intro L hL
      simp only [List.mem_map, List.mem_range] at hL
      obtain ⟨a, ha, rfl⟩ := hL
      rw [agLiveSlots, List.nodup_flatten]
      constructor
      · intro l hl
        simp only [List.mem_map] at hl
        obtain ⟨irec, _, rfl⟩ := hl
        exact chunkLiveSlots_nodup a irec
      · refine List.Pairwise.map _ ?_ (hsort a ha)
        intro r r' hrr p hp hp'
        obtain ⟨j, hj, _, rfl⟩ := mem_chunkLiveSlots.mp hp
        obtain ⟨j', hj', _, hpe⟩ := mem_chunkLiveSlots.mp hp'
        simp only [Prod.mk.injEq] at hpe
        omega
    · refine List.Pairwise.map _ ?_ (List.pairwise_lt_range _)
      intro a a' haa p hp hp'
      have h1 := agLiveSlots_fst hp
      have h2 := agLiveSlots_fst hp'
      omega

theorem C9_witness :
    ((∀ p : Nat × Nat,
      p ∈ visitedPairs [Event.logMsg false, Event.visit 0 2,
        Event.reserve 10 128, Event.iput 2, Event.cancel 2] ↔
      ∃ a < exSnapOrph.glob_agcount, ∃ irec ∈ exSnapOrph.recs a,
        ∃ j < XFS_INODES_PER_CHUNK,
          irec.is_inode_confirmed j = true ∧
          irec.is_inode_free j = false ∧
          p = (a, irec.ino_startnum + j)) ∧
    (visitedPairs [Event.logMsg false, Event.visit 0 2,
      Event.reserve 10 128, Event.iput 2, Event.cancel 2]).Nodup) :=
  C9_partition_coverage exGMut exSnapOrph [0] exOrphDisk exOrphDisk
    [Event.logMsg false, Event.visit 0 2, Event.reserve 10 128,
      Event.iput 2, Event.cancel 2] rfl rfl
    (by decide) (by decide)

/-! ## Frame lemmas: the walk writes only the inodes of its own slots -/

theorem phase7_slots_frame {g : Globals} {agno : Nat} {irec : InoTreeNode} :
    ∀ {js : List Nat} {d e : Disk} {tr : List Event},
      phase7_slots g agno irec js d = some (e, tr) →
      ∀ i, (∀ j ∈ js,
          i ≠ XFS_AGINO_TO_INO g.aginoBits agno (irec.ino_startnum + j)) →
        e i = d i := by
  intro js
  induction js with
  | nil =>
    intro d e tr h i _
    simp only [phase7_slots, Option.some.injEq, Prod.mk.injEq] at h
    rw [← h.1]
  | cons j js ih =>
    intro d e tr h i hi
    rw [phase7_slots_cons] at h
    split at h
    · exact ih h i (fun j' hj' => hi j' (List.mem_cons_of_mem _ hj'))
    · split at h
      · obtain ⟨tr₀, h₁, rfl⟩ := consEv_eq_some.mp h
        obtain ⟨d₁, evs₁, evs₂, hu, hs, rfl⟩ := seqRes_eq_some.mp h₁
        rw [ih hs i (fun j' hj' => hi j' (List.mem_cons_of_mem _ hj'))]
        exact update_frame hu i (hi j (List.mem_cons_self _ _))
      · obtain ⟨tr₀, h₁, rfl⟩ := consEv_eq_some.mp h
        exact ih h₁ i (fun j' hj' => hi j' (List.mem_cons_of_mem _ hj'))

theorem phase7_chunks_frame {g : Globals} {agno : Nat} :
    ∀ {chain : List InoTreeNode} {d e : Disk} {tr : List Event},
      phase7_chunks g agno chain d = some (e, tr) →
      ∀ i, (∀ irec ∈ chain, ∀ j < XFS_INODES_PER_CHUNK,
          i ≠ XFS_AGINO_TO_INO g.aginoBits agno (irec.ino_startnum + j)) →
        e i = d i := by
  intro chain
  induction chain with
  | nil =>
    intro d e tr h i _
    simp only [phase7_chunks, Option.some.injEq, Prod.mk.injEq] at h
    rw [← h.1]
  | cons r rest ih =>
    intro d e tr h i hi
    rw [phase7_chunks_cons] at h
    obtain ⟨d₁, evs₁, evs₂, hs, hr, rfl⟩ := seqRes_eq_some.mp h
    rw [ih hr i (fun irec hirec => hi irec (List.mem_cons_of_mem _ hirec))]
    exact phase7_slots_frame hs i (fun j hj =>
      hi r (List.mem_cons_self _ _) j (List.mem_range.mp hj))

theorem phase7_ags_frame {g : Globals} {snap : Snapshot} :
    ∀ {ags : List Nat} {d e : Disk} {tr : List Event},
      phase7_ags g snap ags d = some (e, tr) →
      ∀ i, (∀ a ∈ ags, ∀ irec ∈ snap.recs a, ∀ j < XFS_INODES_PER_CHUNK,
          i ≠ XFS_AGINO_TO_INO g.aginoBits a (irec.ino_startnum + j)) →
        e i = d i := by
  intro ags
  induction ags with
  | nil =>
    intro d e tr h i _
    simp only [phase7_ags, Option.some.injEq, Prod.mk.injEq] at h
    rw [← h.1]
  | cons a rest ih =>
    intro d e tr h i hi
    rw [phase7_ags_cons] at h
    obtain ⟨d₁, evs₁, evs₂, hs, hr, rfl⟩ := seqRes_eq_some.mp h
    rw [ih hr i (fun a' ha' => hi a' (List.mem_cons_of_mem _ ha'))]
    exact phase7_chunks_frame hs i (hi a (List.mem_cons_self _ _))

/-! ## Value lemmas: after a mutation-mode pass the link counts match -/

/-- A completed applier invocation on a mappable non-orphanage inode
leaves its on-disk link count equal to the target (it either wrote the
target or found it already there). -/
theorem update_writes {g : Globals} {d e : Disk} {ino n : Nat}
    {evs : List Event} (hnm : g.no_modify = false)
    (ho : ino ≠ g.orphanage_ino)
    (h : update_inode_nlinks g d ino n = some (e, evs))
    (v : Nat) (hd : d ino = some v) :
    e ino = some n := by
  simp only [update_inode_nlinks, hd] at h
  rw [if_pos ho] at h
  by_cases hv : v = n
  · subst hv
    rw [show set_nlinks g.no_modify v ino v false = (v, false, []) from
      by simp [set_nlinks]] at h
    split at h
    · simp only [Option.some.injEq, Prod.mk.injEq] at h
      rw [← h.1, hd]
    · rename_i hds
      exact absurd rfl hds
  · rw [show set_nlinks g.no_modify v ino n false =
        (n, true, Event.warnReset ino v n ::
          (if XFS_MAXLINK_1 < n then [Event.warnOverflowV1 n ino] else []))
      from by simp [set_nlinks, hv, hnm]] at h
    rw [if_neg (by simp)] at h
    simp only [Option.some.injEq, Prod.mk.injEq] at h
    rw [← h.1]
    simp

/-- Slot-walk value lemma: after a completed mutation-mode walk over
pairwise-distinct bounded slots, every live non-orphanage slot whose
recorded link count matched the disk ends up with its computed count on
disk. -/
theorem phase7_slots_value {g : Globals} {agno : Nat} {irec : InoTreeNode}
    (hnm : g.no_modify = false) :
    ∀ {js : List Nat} {d e : Disk} {tr : List Event},
      phase7_slots g agno irec js d = some (e, tr) →
      js.Nodup →
      (∀ j' ∈ js, irec.ino_startnum + j' < 2 ^ g.aginoBits) →
      ∀ j ∈ js, irec.is_inode_free j = false →
        XFS_AGINO_TO_INO g.aginoBits agno (irec.ino_startnum + j) ≠
          g.orphanage_ino →
        d (XFS_AGINO_TO_INO g.aginoBits agno (irec.ino_startnum + j)) =
          some (irec.get_inode_disk_nlinks j) →
        e (XFS_AGINO_TO_INO g.aginoBits agno (irec.ino_startnum + j)) =
          some (irec.num_inode_references j) := by
  intro js
  induction js with
  | nil =>
    intro d e tr _ _ _ j hj
    exact absurd hj (by simp)
  | cons j0 js ih =>
    intro d e tr h hnd hbnd j hj hf ho hd
    obtain ⟨hj0, hnd'⟩ := List.nodup_cons.mp hnd
    rw [phase7_slots_cons] at h
    rcases List.mem_cons.mp hj with rfl | hj'
    · -- `j` is the head slot
      have hne_tail : ∀ j' ∈ js,
          XFS_AGINO_TO_INO g.aginoBits agno (irec.ino_startnum + j) ≠
            XFS_AGINO_TO_INO g.aginoBits agno (irec.ino_startnum + j') := by
        intro j' hj'' heq
        have hb1 := hbnd j (List.mem_cons_self _ _)
        have hb2 := hbnd j' (List.mem_cons_of_mem _ hj'')
        obtain ⟨-, h2⟩ := XFS_AGINO_TO_INO_inj hb1 hb2 heq
        have hjj : j = j' := by omega
        exact hj0 (hjj ▸ hj'')
      split at h
      · rename_i hfree
        rw [hfree] at hf
        exact absurd hf (by simp)
      · split at h
        · obtain ⟨tr₀, h₁, rfl⟩ := consEv_eq_some.mp h
          obtain ⟨d₁, evs₁, evs₂, hu, hs, rfl⟩ := seqRes_eq_some.mp h₁
          have hd₁ := update_writes hnm ho hu _ hd
          rw [phase7_slots_frame hs _ hne_tail, hd₁]
        · rename_i hnomis
          obtain ⟨tr₀, h₁, rfl⟩ := consEv_eq_some.mp h
          have heq : irec.get_inode_disk_nlinks j =
              irec.num_inode_references j := by
            by_contra hc
            exact hnomis hc
          rw [phase7_slots_frame h₁ _ hne_tail, hd, heq]
    · -- `j` lies in the tail
      have hbnd' : ∀ j' ∈ js, irec.ino_startnum + j' < 2 ^ g.aginoBits :=
        fun j' hj'' => hbnd j' (List.mem_cons_of_mem _ hj'')
      split at h
      · exact ih h hnd' hbnd' j hj' hf ho hd
      · split at h
        · obtain ⟨tr₀, h₁, rfl⟩ := consEv_eq_some.mp h
          obtain ⟨d₁, evs₁, evs₂, hu, hs, rfl⟩ := seqRes_eq_some.mp h₁
          have hne : XFS_AGINO_TO_INO g.aginoBits agno
              (irec.ino_startnum + j) ≠
              XFS_AGINO_TO_INO g.aginoBits agno (irec.ino_startnum + j0) := by
            intro heq
            have hb1 := hbnd j (List.mem_cons_of_mem _ hj')
            have hb2 := hbnd j0 (List.mem_cons_self _ _)
            obtain ⟨-, h2⟩ := XFS_AGINO_TO_INO_inj hb1 hb2 heq
            have hjj : j = j0 := by omega
            subst hjj
            exact hj0 hj'
          have hd₁ : d₁ (XFS_AGINO_TO_INO g.aginoBits agno
              (irec.ino_startnum + j)) =
              some (irec.get_inode_disk_nlinks j) := by
            rw [update_frame hu _ hne, hd]
          exact ih hs hnd' hbnd' j hj' hf ho hd₁
        · obtain ⟨tr₀, h₁, rfl⟩ := consEv_eq_some.mp h
          exact ih h₁ hnd' hbnd' j hj' hf ho hd

/-- Chunk-chain value lemma (mutation mode, sorted bounded chain). -/
theorem phase7_chunks_value {g : Globals} {agno : Nat}
    (hnm : g.no_modify = false) :
    ∀ {chain : List InoTreeNode} {d e : Disk} {tr : List Event},
      phase7_chunks g agno chain d = some (e, tr) →
      List.Pairwise (fun r r' : InoTreeNode =>
        r.ino_startnum + XFS_INODES_PER_CHUNK ≤ r'.ino_startnum) chain →
      (∀ r ∈ chain,
        r.ino_startnum + XFS_INODES_PER_CHUNK ≤ 2 ^ g.aginoBits) →
      ∀ irec ∈ chain, ∀ j < XFS_INODES_PER_CHUNK,
        irec.is_inode_free j = false →
        XFS_AGINO_TO_INO g.aginoBits agno (irec.ino_startnum + j) ≠
          g.orphanage_ino →
        d (XFS_AGINO_TO_INO g.aginoBits agno (irec.ino_startnum + j)) =
          some (irec.get_inode_disk_nlinks j) →
        e (XFS_AGINO_TO_INO g.aginoBits agno (irec.ino_startnum + j)) =
          some (irec.num_inode_references j) := by
  intro chain
  induction chain with
  | nil =>
    intro d e tr _ _ _ irec hirec
    exact absurd hirec (by simp)
  | cons r rest ih =>
    intro d e tr h hpw hb irec hirec j hj hf ho hd
    obtain ⟨hpw0, hpw'⟩ := List.pairwise_cons.mp hpw
    rw [phase7_chunks_cons] at h
    obtain ⟨d₁, evs₁, evs₂, hs, hr, rfl⟩ := seqRes_eq_some.mp h
    have hbr := hb r (List.mem_cons_self _ _)
    rcases List.mem_cons.mp hirec with rfl | hirec'
    · -- `irec` is the head chunk
      have hval : d₁ (XFS_AGINO_TO_INO g.aginoBits agno
          (irec.ino_startnum + j)) = some (irec.num_inode_references j) := by
        refine phase7_slots_value hnm hs (List.nodup_range _) ?_ j
          (List.mem_range.mpr hj) hf ho hd
        intro j' hj'
        have := List.mem_range.mp hj'
        omega
      rw [phase7_chunks_frame hr _ ?_, hval]
      intro r' hr' j' hj' heq
      have hle := hpw0 r' hr'
      have hbr' := hb r' (List.mem_cons_of_mem _ hr')
      obtain ⟨-, h2⟩ := XFS_AGINO_TO_INO_inj
        (by omega) (by omega) heq
      omega
    · -- `irec` lies deeper in the chain
      have hbi := hb irec (List.mem_cons_of_mem _ hirec')
      have hle := hpw0 irec hirec'
      have hd₁ : d₁ (XFS_AGINO_TO_INO g.aginoBits agno
          (irec.ino_startnum + j)) =
          some (irec.get_inode_disk_nlinks j) := by
        rw [phase7_slots_frame hs _ ?_, hd]
        intro j' hj' heq
        have hj'' := List.mem_range.mp hj'
        obtain ⟨-, h2⟩ := XFS_AGINO_TO_INO_inj
          (by omega) (by omega) heq
        omega
      exact ih hr hpw' (fun r' hr' => hb r' (List.mem_cons_of_mem _ hr'))
        irec hirec' j hj hf ho hd₁

/-- AG-loop value lemma (mutation mode). -/
theorem phase7_ags_value {g : Globals} {snap : Snapshot}
    (hnm : g.no_modify = false) :
    ∀ {ags : List Nat} {d e : Disk} {tr : List Event},
      phase7_ags g snap ags d = some (e, tr) →
      ags.Nodup →
      (∀ a ∈ ags,
        List.Pairwise (fun r r' : InoTreeNode =>
          r.ino_startnum + XFS_INODES_PER_CHUNK ≤ r'.ino_startnum)
          (snap.recs a) ∧
        ∀ r ∈ snap.recs a,
          r.ino_startnum + XFS_INODES_PER_CHUNK ≤ 2 ^ g.aginoBits) →
      ∀ a ∈ ags, ∀ irec ∈ snap.recs a, ∀ j < XFS_INODES_PER_CHUNK,
        irec.is_inode_free j = false →
        XFS_AGINO_TO_INO g.aginoBits a (irec.ino_startnum + j) ≠
          g.orphanage_ino →
        d (XFS_AGINO_TO_INO g.aginoBits a (irec.ino_startnum + j)) =
          some (irec.get_inode_disk_nlinks j) →
        e (XFS_AGINO_TO_INO g.aginoBits a (irec.ino_startnum + j)) =
          some (irec.num_inode_references j) := by
  intro ags
  induction ags with
  | nil =>
    intro d e tr _ _ _ a ha
    exact absurd ha (by simp)
  | cons a0 rest ih =>
    intro d e tr h hnd hwf a ha irec hirec j hj hf ho hd
    obtain ⟨ha0, hnd'⟩ := List.nodup_cons.mp hnd
    rw [phase7_ags_cons] at h
    obtain ⟨d₁, evs₁, evs₂, hs, hr, rfl⟩ := seqRes_eq_some.mp h
    obtain ⟨hw0, hb0⟩ := hwf a0 (List.mem_cons_self _ _)
    rcases List.mem_cons.mp ha with rfl | ha'
    · -- `a` is the AG being processed first
      have hval : d₁ (XFS_AGINO_TO_INO g.aginoBits a
          (irec.ino_startnum + j)) = some (irec.num_inode_references j) :=
        phase7_chunks_value hnm hs hw0 hb0 irec hirec j hj hf ho hd
      rw [phase7_ags_frame hr _ ?_, hval]
      intro a' ha' irec' hirec' j' hj' heq
      have hbi := hb0 irec hirec
      have hbi' := (hwf a' (List.mem_cons_of_mem _ ha')).2 irec' hirec'
      obtain ⟨h1, -⟩ := XFS_AGINO_TO_INO_inj (by omega) (by omega) heq
      exact ha0 (h1 ▸ ha')
    · -- `a` comes later
      have hbi := (hwf a (List.mem_cons_of_mem _ ha')).2 irec hirec
      have hd₁ : d₁ (XFS_AGINO_TO_INO g.aginoBits a
          (irec.ino_startnum + j)) =
          some (irec.get_inode_disk_nlinks j) := by
        rw [phase7_chunks_frame hs _ ?_, hd]
        intro irec' hirec' j' hj' heq
        have hbi' := hb0 irec' hirec'
        obtain ⟨h1, -⟩ := XFS_AGINO_TO_INO_inj (by omega) (by omega) heq
        exact ha0 (h1 ▸ ha')
      exact ih hr hnd' (fun a' ha'' => hwf a' (List.mem_cons_of_mem _ ha''))
        a ha' irec hirec j hj hf ho hd₁

/-! ## A pass over an already-reconciled snapshot performs no correction -/

theorem phase7_slots_nocorr {g : Globals} {agno : Nat}
    {irec : InoTreeNode} :
    ∀ {js : List Nat} {d : Disk},
      (∀ j ∈ js, irec.is_inode_free j = false →
        irec.get_inode_disk_nlinks j ≠ irec.num_inode_references j →
        XFS_AGINO_TO_INO g.aginoBits agno (irec.ino_startnum + j) =
          g.orphanage_ino ∧
        ∃ v, d (XFS_AGINO_TO_INO g.aginoBits agno (irec.ino_startnum + j)) =
          some v) →
      ∃ tr, phase7_slots g agno irec js d = some (d, tr) ∧
        corrections tr = [] := by
  intro js
  induction js with
  | nil =>
    intro d _
    exact ⟨[], by simp [phase7_slots], rfl⟩
  | cons j0 js ih =>
    intro d hyp
    obtain ⟨tr', h', hc'⟩ :=
      ih (fun j hj => hyp j (List.mem_cons_of_mem _ hj))
    by_cases hf0 : irec.is_inode_free j0
    · exact ⟨tr', by rw [phase7_slots_cons, if_pos hf0]; exact h', hc'⟩
    · by_cases hms0 : irec.get_inode_disk_nlinks j0 ≠
          irec.num_inode_references j0
      · have hf0' : irec.is_inode_free j0 = false := by simpa using hf0
        obtain ⟨hino, v, hv⟩ :=
          hyp j0 (List.mem_cons_self _ _) hf0' hms0
        have hu : update_inode_nlinks g d
            (XFS_AGINO_TO_INO g.aginoBits agno (irec.ino_startnum + j0))
            (irec.num_inode_references j0) =
            some (d, [Event.reserve (if g.no_modify then 0 else 10)
              g.removeLogRes, Event.iput g.orphanage_ino,
              Event.cancel g.orphanage_ino]) := by
          rw [hino] at hv
          rw [hino]
          exact update_orph_cancel _ hv
        refine ⟨Event.visit agno (irec.ino_startnum + j0) ::
          ([Event.reserve (if g.no_modify then 0 else 10) g.removeLogRes,
            Event.iput g.orphanage_ino, Event.cancel g.orphanage_ino] ++
            tr'), ?_, ?_⟩
        · rw [phase7_slots_cons, if_neg hf0, if_pos hms0, hu]
          simp [seqRes, consEv, h']
        · simp only [corrections, List.filterMap_cons,
            List.filterMap_append] at hc' ⊢
          simpa using hc'
      · refine ⟨Event.visit agno (irec.ino_startnum + j0) :: tr', ?_, ?_⟩
        · rw [phase7_slots_cons, if_neg hf0, if_neg hms0, h']
          rfl
        · simp only [corrections, List.filterMap_cons] at hc' ⊢
          simpa using hc'

theorem phase7_chunks_nocorr {g : Globals} {agno : Nat} :
    ∀ {chain : List InoTreeNode} {d : Disk},
      (∀ irec ∈ chain, ∀ j < XFS_INODES_PER_CHUNK,
        irec.is_inode_free j = false →
        irec.get_inode_disk_nlinks j ≠ irec.num_inode_references j →
        XFS_AGINO_TO_INO g.aginoBits agno (irec.ino_startnum + j) =
          g.orphanage_ino ∧
        ∃ v, d (XFS_AGINO_TO_INO g.aginoBits agno (irec.ino_startnum + j)) =
          some v) →
      ∃ tr, phase7_chunks g agno chain d = some (d, tr) ∧
        corrections tr = [] := by
  intro chain
  induction chain with
  | nil =>
    intro d _
    exact ⟨[], by simp [phase7_chunks], rfl⟩
  | cons r rest ih =>
    intro d hyp
    obtain ⟨tr₁, h₁, hc₁⟩ := phase7_slots_nocorr
      (fun j hj => hyp r (List.mem_cons_self _ _) j (List.mem_range.mp hj))
    obtain ⟨tr₂, h₂, hc₂⟩ :=
      ih (fun irec hirec => hyp irec (List.mem_cons_of_mem _ hirec))
    refine ⟨tr₁ ++ tr₂, ?_, ?_⟩
    · rw [phase7_chunks_cons, h₁]
      simp [seqRes, h₂]
    · rw [corrections_append, hc₁, hc₂]
      rfl

theorem phase7_ags_nocorr {g : Globals} {snap : Snapshot} :
    ∀ {ags : List Nat} {d : Disk},
      (∀ a ∈ ags, ∀ irec ∈ snap.recs a, ∀ j < XFS_INODES_PER_CHUNK,
        irec.is_inode_free j = false →
        irec.get_inode_disk_nlinks j ≠ irec.num_inode_references j →
        XFS_AGINO_TO_INO g.aginoBits a (irec.ino_startnum + j) =
          g.orphanage_ino ∧
        ∃ v, d (XFS_AGINO_TO_INO g.aginoBits a (irec.ino_startnum + j)) =
          some v) →
      ∃ tr, phase7_ags g snap ags d = some (d, tr) ∧
        corrections tr = [] := by
  intro ags
  induction ags with
  | nil =>
    intro d _
    exact ⟨[], by simp [phase7_ags], rfl⟩
  | cons a rest ih =>
    intro d hyp
    obtain ⟨tr₁, h₁, hc₁⟩ := phase7_chunks_nocorr
      (hyp a (List.mem_cons_self _ _))
    obtain ⟨tr₂, h₂, hc₂⟩ :=
      ih (fun a' ha' => hyp a' (List.mem_cons_of_mem _ ha'))
    refine ⟨tr₁ ++ tr₂, ?_, ?_⟩
    · rw [phase7_ags_cons, h₁]
      simp [seqRes, h₂]
    · rw [corrections_append, hc₁, hc₂]
      rfl

/-- Helper: right-membership destructor for `List.Forall₂`. -/
theorem forall2_mem_right {α β : Type} {R : α → β → Prop} :
    ∀ {l₁ : List α} {l₂ : List β}, List.Forall₂ R l₁ l₂ →
      ∀ b ∈ l₂, ∃ a ∈ l₁, R a b := by
  intro l₁ l₂ h
  induction h with
  | nil =>
    intro b hb
    exact absurd hb (by simp)
  | cons hR hF ih =>
    intro b hb
    rcases List.mem_cons.mp hb with rfl | hb'
    · exact ⟨_, List.mem_cons_self _ _, hR⟩
    · obtain ⟨a, ha, hr⟩ := ih b hb'
      exact ⟨a, List.mem_cons_of_mem _ ha, hr⟩

/-! ## Claim C8: idempotence of the mutation-mode pass -/

/-- **C8 (amended)**: running the reconciliation pass twice in mutation
mode with no filesystem changes between runs performs zero corrections on
the second run.  After run 1, every live *non-orphanage* inode's on-disk
link count equals its computed reference count, so on run 2 — over a
snapshot rebuilt from the new disk with unchanged structure and computed
counts — the walker's mismatch test can only fire at the orphanage
inode, where the applier is a no-op; run 2 therefore completes with the
disk unchanged and an empty correction list.  (The original claim's
"mismatch test false everywhere on run 2" fails at a mismatched
orphanage slot; see the counterexample.) -/
theorem C8_idempotent_amended (g : Globals) (snap snap₂ : Snapshot)
    (sched : List Nat) (d d₁ : Disk) (tr₁ : List Event)
    (hnm : g.no_modify = false)
    (hpf : g.do_prefetch = false)
    (hwf : ∀ a < snap.glob_agcount,
      List.Pairwise (fun r r' : InoTreeNode =>
        r.ino_startnum + XFS_INODES_PER_CHUNK ≤ r'.ino_startnum)
        (snap.recs a) ∧
      ∀ r ∈ snap.recs a,
        r.ino_startnum + XFS_INODES_PER_CHUNK ≤ 2 ^ g.aginoBits)
    (hcons : ∀ a < snap.glob_agcount, ∀ irec ∈ snap.recs a,
      ∀ j < XFS_INODES_PER_CHUNK, irec.is_inode_free j = false →
        d (XFS_AGINO_TO_INO g.aginoBits a (irec.ino_startnum + j)) =
          some (irec.get_inode_disk_nlinks j))
    (h1 : phase7 g snap sched d = some (d₁, tr₁))
    (hag : snap₂.glob_agcount = snap.glob_agcount)
    (hreb : ∀ a < snap.glob_agcount,
      List.Forall₂ (fun r r' : InoTreeNode =>
        r'.ino_startnum = r.ino_startnum ∧
        ∀ j < XFS_INODES_PER_CHUNK,
          r'.is_inode_free j = r.is_inode_free j ∧
          r'.num_inode_references j = r.num_inode_references j)
        (snap.recs a) (snap₂.recs a))
    (hcons₂ : ∀ a < snap₂.glob_agcount, ∀ irec ∈ snap₂.recs a,
      ∀ j < XFS_INODES_PER_CHUNK, irec.is_inode_free j = false →
        d₁ (XFS_AGINO_TO_INO g.aginoBits a (irec.ino_startnum + j)) =
          some (irec.get_inode_disk_nlinks j)) :
    (∀ a < snap.glob_agcount, ∀ irec ∈ snap.recs a,
      ∀ j < XFS_INODES_PER_CHUNK, irec.is_inode_free j = false →
        XFS_AGINO_TO_INO g.aginoBits a (irec.ino_startnum + j) ≠
          g.orphanage_ino →
        d₁ (XFS_AGINO_TO_INO g.aginoBits a (irec.ino_startnum + j)) =
          some (irec.num_inode_references j)) ∧
    ∃ tr₂, phase7 g snap₂ sched d₁ = some (d₁, tr₂) ∧
      corrections tr₂ = [] := by
  obtain ⟨evs, hin, -⟩ := phase7_eq_some h1
  rw [if_neg (by simp [hpf])] at hin
  have P1 : ∀ a < snap.glob_agcount, ∀ irec ∈ snap.recs a,
      ∀ j < XFS_INODES_PER_CHUNK, irec.is_inode_free j = false →
        XFS_AGINO_TO_INO g.aginoBits a (irec.ino_startnum + j) ≠
          g.orphanage_ino →
        d₁ (XFS_AGINO_TO_INO g.aginoBits a (irec.ino_startnum + j)) =
          some (irec.num_inode_references j) := by
    intro a ha irec hirec j hj hf ho
    exact phase7_ags_value hnm hin (List.nodup_range _)
      (fun a' ha' => hwf a' (List.mem_range.mp ha'))
      a (List.mem_range.mpr ha) irec hirec j hj hf ho
      (hcons a ha irec hirec j hj hf)
  refine ⟨P1, ?_⟩
  have hyp2 : ∀ a ∈ List.range snap₂.glob_agcount, ∀ irec₂ ∈ snap₂.recs a,
      ∀ j < XFS_INODES_PER_CHUNK, irec₂.is_inode_free j = false →
      irec₂.get_inode_disk_nlinks j ≠ irec₂.num_inode_references j →
      XFS_AGINO_TO_INO g.aginoBits a (irec₂.ino_startnum + j) =
        g.orphanage_ino ∧
      ∃ v, d₁ (XFS_AGINO_TO_INO g.aginoBits a (irec₂.ino_startnum + j)) =
        some v := by
    intro a ha irec₂ hirec₂ j hj hf₂ hms₂
    have ha' : a < snap.glob_agcount := by
      have := List.mem_range.mp ha
      omega
    obtain ⟨irec, hirec, hstart, hslot⟩ :=
      forall2_mem_right (hreb a ha') irec₂ hirec₂
    obtain ⟨hfeq, hneq⟩ := hslot j hj
    by_cases ho : XFS_AGINO_TO_INO g.aginoBits a (irec₂.ino_startnum + j) =
        g.orphanage_ino
    · exact ⟨ho, _, hcons₂ a (List.mem_range.mp ha) irec₂ hirec₂ j hj hf₂⟩
    · exfalso
      have hv := P1 a ha' irec hirec j hj
        (by rw [← hfeq]; exact hf₂)
        (by rw [← hstart]; exact ho)
      have hc := hcons₂ a (List.mem_range.mp ha) irec₂ hirec₂ j hj hf₂
      rw [hstart, hv] at hc
      simp only [Option.some.injEq] at hc
      apply hms₂
      omega
  obtain ⟨tr₂, h₂, hc₂⟩ := phase7_ags_nocorr hyp2
  refine ⟨Event.logMsg g.no_modify :: tr₂, ?_, ?_⟩
  · simp [phase7, hpf, h₂]
  · simpa [corrections] using hc₂

/-- The second-run snapshot of the witness scenario: identical structure
and computed counts, with the recorded on-disk link counts re-read from
the corrected disk. -/
def exInoRec2 : InoTreeNode :=
  { exInoRec with get_inode_disk_nlinks := fun j => if j = 1 then 2 else 1 }

def exSnap2 : Snapshot where
  glob_agcount := 1
  recs := fun a => if a = 0 then [exInoRec2] else []

/-- The disk after run 1 of the witness scenario: inode 1 corrected
3 → 2. -/
def exDisk1 : Disk := fun i => if i = 1 then some 2 else exDisk i

theorem C8_witness :
    ((∀ a < exSnap.glob_agcount, ∀ irec ∈ exSnap.recs a,
      ∀ j < XFS_INODES_PER_CHUNK, irec.is_inode_free j = false →
        XFS_AGINO_TO_INO exGMut.aginoBits a (irec.ino_startnum + j) ≠
          exGMut.orphanage_ino →
        exDisk1 (XFS_AGINO_TO_INO exGMut.aginoBits a
          (irec.ino_startnum + j)) =
          some (irec.num_inode_references j)) ∧
    ∃ tr₂, phase7 exGMut exSnap2 [0] exDisk1 = some (exDisk1, tr₂) ∧
      corrections tr₂ = []) :=
  C8_idempotent_amended exGMut exSnap exSnap2 [0] exDisk exDisk1
    [Event.logMsg false, Event.visit 0 0, Event.visit 0 1,
      Event.reserve 10 128, Event.warnReset 1 3 2, Event.logInode 1,
      Event.commitSync 1, Event.visit 0 2, Event.visit 0 3]
    rfl rfl (by decide) (by decide) rfl rfl
    (by
      intro a ha
      have haz : a = 0 := Nat.lt_one_iff.mp ha
      subst haz
      exact List.Forall₂.cons ⟨rfl, fun j hj => ⟨rfl, rfl⟩⟩
        List.Forall₂.nil)
    (by decide)

/-- **C8 counterexample**: the claim's parenthetical "the walker's
mismatch test is false everywhere on run 2" is refuted when the orphanage
inode itself is mismatched.  In this concrete mutation-mode scenario run
1 completes without touching the disk (the only mismatched slot is the
orphanage), so the snapshot rebuilt for run 2 is identical and its live
orphanage slot still fails the mismatch test — even though run 2 indeed
performs zero corrections. -/
theorem C8_counterexample :
    exGMut.no_modify = false ∧
    (∀ j < XFS_INODES_PER_CHUNK, exOrphRec.is_inode_free j = false →
      exOrphDisk (XFS_AGINO_TO_INO exGMut.aginoBits 0
        (exOrphRec.ino_startnum + j)) =
        some (exOrphRec.get_inode_disk_nlinks j)) ∧
    phase7 exGMut exSnapOrph [0] exOrphDisk =
      some (exOrphDisk, [Event.logMsg false, Event.visit 0 2,
        Event.reserve 10 128, Event.iput 2, Event.cancel 2]) ∧
    ¬(∀ j < XFS_INODES_PER_CHUNK, exOrphRec.is_inode_free j = false →
      exOrphRec.get_inode_disk_nlinks j = exOrphRec.num_inode_references j) ∧
    corrections [Event.logMsg false, Event.visit 0 2,
      Event.reserve 10 128, Event.iput 2, Event.cancel 2] = [] :=
  ⟨rfl, by decide, rfl, by decide, rfl⟩

/-! ## Claim C3: concurrent/sequential equivalence

One AG task reads and writes only the disk slice of its own allocation
group (the inodes `i` with `i >>> aginoBits = agno`).  `TaskRel` captures
this: run from two disks that agree on the AG's slice, a computation
produces the same trace, results that again agree on the slice, and
leaves everything outside the slice untouched. -/

def TaskRel (bits a : Nat) (d d' : Disk) :
    Option (Disk × List Event) → Option (Disk × List Event) → Prop
  | none, none => True
  | some (e, tr), some (e', tr') =>
      tr = tr' ∧ (∀ i, i >>> bits = a → e i = e' i) ∧
      (∀ i, ¬(i >>> bits = a) → e i = d i ∧ e' i = d' i)
  | _, _ => False

theorem update_taskRel (g : Globals) (a x n : Nat) (d d' : Disk)
    (hx : x < 2 ^ g.aginoBits)
    (hagree : ∀ i, i >>> g.aginoBits = a → d i = d' i) :
    TaskRel g.aginoBits a d d'
      (update_inode_nlinks g d (XFS_AGINO_TO_INO g.aginoBits a x) n)
      (update_inode_nlinks g d' (XFS_AGINO_TO_INO g.aginoBits a x) n) := by
  have hag : XFS_AGINO_TO_INO g.aginoBits a x >>> g.aginoBits = a :=
    XFS_AGINO_TO_INO_shiftRight a hx
  have hdd : d (XFS_AGINO_TO_INO g.aginoBits a x) =
      d' (XFS_AGINO_TO_INO g.aginoBits a x) :=
    hagree _ hag
  cases hd : d (XFS_AGINO_TO_INO g.aginoBits a x) with
  | none =>
    have hd' : d' (XFS_AGINO_TO_INO g.aginoBits a x) = none := by
      rw [← hdd, hd]
    simp only [update_inode_nlinks, hd, hd']
    cases hnm : g.no_modify
    · simp only [Bool.false_eq_true, if_false, ite_false]
      trivial
    · simp only [if_true, ite_true]
      exact ⟨rfl, fun i hi => hagree i hi, fun i _ => ⟨rfl, rfl⟩⟩
  | some v =>
    have hd' : d' (XFS_AGINO_TO_INO g.aginoBits a x) = some v := by
      rw [← hdd, hd]
    simp only [update_inode_nlinks, hd, hd']
    split
    · -- `set_nlinks` runs on both sides (non-orphanage target)
      split
      · exact ⟨rfl, fun i hi => hagree i hi, fun i _ => ⟨rfl, rfl⟩⟩
      · refine ⟨rfl, ?_, ?_⟩
        · intro i hi
          by_cases hii : i = XFS_AGINO_TO_INO g.aginoBits a x
          · simp [hii]
          · simp only [hii, if_false, ite_false]
            exact hagree i hi
        · intro i hi
          have hii : i ≠ XFS_AGINO_TO_INO g.aginoBits a x :=
            fun hh => hi (hh ▸ hag)
          exact ⟨by simp [hii], by simp [hii]⟩
    · -- orphanage target: cancel path on both sides
      split
      · exact ⟨rfl, fun i hi => hagree i hi, fun i _ => ⟨rfl, rfl⟩⟩
      · rename_i hds
        exact absurd rfl hds

theorem phase7_slots_taskRel {g : Globals} {a : Nat} {irec : InoTreeNode} :
    ∀ {js : List Nat} {d d' : Disk},
      (∀ j ∈ js, irec.ino_startnum + j < 2 ^ g.aginoBits) →
      (∀ i, i >>> g.aginoBits = a → d i = d' i) →
      TaskRel g.aginoBits a d d'
        (phase7_slots g a irec js d) (phase7_slots g a irec js d') := by
  intro js
  induction js with
  | nil =>
    intro d d' _ hagree
    exact ⟨rfl, fun i hi => hagree i hi, fun i _ => ⟨rfl, rfl⟩⟩
  | cons j js ih =>
    intro d d' hb hagree
    have hb' : ∀ j' ∈ js, irec.ino_startnum + j' < 2 ^ g.aginoBits :=
      fun j' hj' => hb j' (List.mem_cons_of_mem _ hj')
    rw [phase7_slots_cons, phase7_slots_cons]
    split
    · exact ih hb' hagree
    · split
      · -- mismatch: the applier runs on both sides
        have hrel := update_taskRel g a (irec.ino_startnum + j)
          (irec.num_inode_references j) d d'
          (hb j (List.mem_cons_self _ _)) hagree
        cases hud : update_inode_nlinks g d
            (XFS_AGINO_TO_INO g.aginoBits a (irec.ino_startnum + j))
            (irec.num_inode_references j) with
        | none =>
          cases hud' : update_inode_nlinks g d'
              (XFS_AGINO_TO_INO g.aginoBits a (irec.ino_startnum + j))
              (irec.num_inode_references j) with
          | none =>
            trivial
          | some p =>
            rw [hud, hud'] at hrel
            exact absurd hrel (by cases p; simp [TaskRel])
        | some p =>
          obtain ⟨d₁, evs₁⟩ := p
          cases hud' : update_inode_nlinks g d'
              (XFS_AGINO_TO_INO g.aginoBits a (irec.ino_startnum + j))
              (irec.num_inode_references j) with
          | none =>
            rw [hud, hud'] at hrel
            exact absurd hrel (by simp [TaskRel])
          | some q =>
            obtain ⟨d₁', evs₁'⟩ := q
            rw [hud, hud'] at hrel
            obtain ⟨htr, hin, hout⟩ := hrel
            subst htr
            have ihrel := ih hb' hin
            cases hs : phase7_slots g a irec js d₁ with
            | none =>
              cases hs' : phase7_slots g a irec js d₁' with
              | none =>
                simp only [seqRes]
                rw [hs, hs']
                trivial
              | some p₂ =>
                rw [hs, hs'] at ihrel
                exact absurd ihrel (by cases p₂; simp [TaskRel])
            | some p₂ =>
              obtain ⟨e, tr₂⟩ := p₂
              cases hs' : phase7_slots g a irec js d₁' with
              | none =>
                rw [hs, hs'] at ihrel
                exact absurd ihrel (by simp [TaskRel])
              | some q₂ =>
                obtain ⟨e', tr₂'⟩ := q₂
                rw [hs, hs'] at ihrel
                obtain ⟨htr₂, hin₂, hout₂⟩ := ihrel
                subst htr₂
                simp only [seqRes]
                rw [hs, hs']
                refine ⟨rfl, hin₂, ?_⟩
                intro i hi
                exact ⟨(hout₂ i hi).1.trans (hout i hi).1,
                  (hout₂ i hi).2.trans (hout i hi).2⟩
      · -- no mismatch: just the ghost visit on both sides
        have ihrel := ih hb' hagree
        cases hs : phase7_slots g a irec js d with
        | none =>
          cases hs' : phase7_slots g a irec js d' with
          | none =>
            trivial
          | some p₂ =>
            rw [hs, hs'] at ihrel
            exact absurd ihrel (by cases p₂; simp [TaskRel])
        | some p₂ =>
          obtain ⟨e, tr₂⟩ := p₂
          cases hs' : phase7_slots g a irec js d' with
          | none =>
            rw [hs, hs'] at ihrel
            exact absurd ihrel (by simp [TaskRel])
          | some q₂ =>
            obtain ⟨e', tr₂'⟩ := q₂
            rw [hs, hs'] at ihrel
            obtain ⟨htr₂, hin₂, hout₂⟩ := ihrel
            subst htr₂
            exact ⟨rfl, hin₂, hout₂⟩

theorem phase7_alt_chunks_taskRel {g : Globals} {a : Nat} :
    ∀ {chain : List InoTreeNode} {d d' : Disk},
      (∀ r ∈ chain,
        r.ino_startnum + XFS_INODES_PER_CHUNK ≤ 2 ^ g.aginoBits) →
      (∀ i, i >>> g.aginoBits = a → d i = d' i) →
      TaskRel g.aginoBits a d d'
        (phase7_alt_chunks g a chain d) (phase7_alt_chunks g a chain d') := by
  intro chain
  induction chain with
  | nil =>
    intro d d' _ hagree
    exact ⟨rfl, fun i hi => hagree i hi, fun i _ => ⟨rfl, rfl⟩⟩
  | cons r rest ih =>
    intro d d' hb hagree
    have hb' : ∀ r' ∈ rest,
        r'.ino_startnum + XFS_INODES_PER_CHUNK ≤ 2 ^ g.aginoBits :=
      fun r' hr' => hb r' (List.mem_cons_of_mem _ hr')
    have hbr : ∀ j ∈ List.range XFS_INODES_PER_CHUNK,
        r.ino_startnum + j < 2 ^ g.aginoBits := by
      intro j hj
      have h1 := hb r (List.mem_cons_self _ _)
      have h2 := List.mem_range.mp hj
      omega
    rw [phase7_alt_chunks_cons, phase7_alt_chunks_cons]
    have hrel := phase7_slots_taskRel hbr hagree
    cases hcs : phase7_slots g a r (List.range XFS_INODES_PER_CHUNK) d with
    | none =>
      cases hcs' : phase7_slots g a r (List.range XFS_INODES_PER_CHUNK) d'
        with
      | none => trivial
      | some p =>
        rw [hcs, hcs'] at hrel
        exact absurd hrel (by cases p; simp [TaskRel])
    | some p =>
      obtain ⟨d₁, evs₁⟩ := p
      cases hcs' : phase7_slots g a r (List.range XFS_INODES_PER_CHUNK) d'
        with
      | none =>
        rw [hcs, hcs'] at hrel
        exact absurd hrel (by simp [TaskRel])
      | some q =>
        obtain ⟨d₁', evs₁'⟩ := q
        rw [hcs, hcs'] at hrel
        obtain ⟨htr, hin, hout⟩ := hrel
        subst htr
        simp only [seqRes]
        have ihrel := ih hb' hin
        cases hca : phase7_alt_chunks g a rest d₁ with
        | none =>
          cases hca' : phase7_alt_chunks g a rest d₁' with
          | none =>
            trivial
          | some p₂ =>
            rw [hca, hca'] at ihrel
            exact absurd ihrel (by cases p₂; simp [TaskRel])
        | some p₂ =>
          obtain ⟨e, tr₂⟩ := p₂
          cases hca' : phase7_alt_chunks g a rest d₁' with
          | none =>
            rw [hca, hca'] at ihrel
            exact absurd ihrel (by simp [TaskRel])
          | some q₂ =>
            obtain ⟨e', tr₂'⟩ := q₂
            rw [hca, hca'] at ihrel
            obtain ⟨htr₂, hin₂, hout₂⟩ := ihrel
            subst htr₂
            refine ⟨rfl, hin₂, ?_⟩
            intro i hi
            exact ⟨(hout₂ i hi).1.trans (hout i hi).1,
              (hout₂ i hi).2.trans (hout i hi).2⟩

/-- One AG task depends only on (and writes only) its own AG's disk
slice. -/
theorem phase7_alt_function_taskRel {g : Globals} {snap : Snapshot}
    {a : Nat} {d d' : Disk}
    (hb : ∀ r ∈ snap.recs a,
      r.ino_startnum + XFS_INODES_PER_CHUNK ≤ 2 ^ g.aginoBits)
    (hagree : ∀ i, i >>> g.aginoBits = a → d i = d' i) :
    TaskRel g.aginoBits a d d'
      (phase7_alt_function g snap a d) (phase7_alt_function g snap a d') :=
  phase7_alt_chunks_taskRel hb hagree

/-- Frame corollary: a completed AG task changes no inode outside its
AG. -/
theorem phase7_alt_function_frame {g : Globals} {snap : Snapshot}
    {a : Nat} {d e : Disk} {tr : List Event}
    (hb : ∀ r ∈ snap.recs a,
      r.ino_startnum + XFS_INODES_PER_CHUNK ≤ 2 ^ g.aginoBits)
    (h : phase7_alt_function g snap a d = some (e, tr)) :
    ∀ i, ¬(i >>> g.aginoBits = a) → e i = d i := by
  have hrel := phase7_alt_function_taskRel hb
    (fun i _ => (rfl : d i = d i))
  rw [h] at hrel
  obtain ⟨-, -, hout⟩ := hrel
  exact fun i hi => (hout i hi).1

/-- Result relation: same abort behaviour, equal final disks, traces
related by `f`. -/
def ResRel (f : List Event → List Event → Prop) :
    Option (Disk × List Event) → Option (Disk × List Event) → Prop
  | none, none => True
  | some (e, tr), some (e', tr') => e = e' ∧ f tr tr'
  | _, _ => False

theorem phase7_alt_tasks_cons_eval {g : Globals} {snap : Snapshot}
    {a : Nat} {rest : List Nat} {d d₁ d₂ : Disk}
    {evs₁ evs₂ : List Event}
    (h1 : phase7_alt_function g snap a d = some (d₁, evs₁))
    (h2 : phase7_alt_tasks g snap rest d₁ = some (d₂, evs₂)) :
    phase7_alt_tasks g snap (a :: rest) d = some (d₂, evs₁ ++ evs₂) := by
  rw [phase7_alt_tasks_cons]
  simp [seqRes, h1, h2]

theorem phase7_alt_tasks_cons_none1 {g : Globals} {snap : Snapshot}
    {a : Nat} {rest : List Nat} {d : Disk}
    (h1 : phase7_alt_function g snap a d = none) :
    phase7_alt_tasks g snap (a :: rest) d = none := by
  rw [phase7_alt_tasks_cons]
  simp [seqRes, h1]

theorem phase7_alt_tasks_cons_none2 {g : Globals} {snap : Snapshot}
    {a : Nat} {rest : List Nat} {d d₁ : Disk} {evs₁ : List Event}
    (h1 : phase7_alt_function g snap a d = some (d₁, evs₁))
    (h2 : phase7_alt_tasks g snap rest d₁ = none) :
    phase7_alt_tasks g snap (a :: rest) d = none := by
  rw [phase7_alt_tasks_cons]
  simp [seqRes, h1, h2]

/-- Pool-order independence: any two schedules that are permutations of
each other drive the per-AG tasks to the same final disk, with
permuted traces (in particular the same correction multiset). -/
theorem phase7_alt_tasks_perm {g : Globals} {snap : Snapshot} :
    ∀ {l l' : List Nat}, l.Perm l' →
      (∀ a ∈ l, ∀ r ∈ snap.recs a,
        r.ino_startnum + XFS_INODES_PER_CHUNK ≤ 2 ^ g.aginoBits) →
      ∀ d : Disk,
        ResRel (fun tr tr' => tr.Perm tr')
          (phase7_alt_tasks g snap l d) (phase7_alt_tasks g snap l' d) := by
  intro l l' hperm
  induction hperm with
  | nil =>
    intro _ d
    exact ⟨rfl, List.Perm.refl _⟩
  | cons x hp ih =>
    rename_i l₁ l₂
    intro hwf d
    cases ht : phase7_alt_function g snap x d with
    | none =>
      rw [phase7_alt_tasks_cons_none1 ht, phase7_alt_tasks_cons_none1 ht]
      trivial
    | some p =>
      obtain ⟨d₁, evs₁⟩ := p
      have ihd := ih (fun a ha => hwf a (List.mem_cons_of_mem _ ha)) d₁
      cases h₁ : phase7_alt_tasks g snap l₁ d₁ with
      | none =>
        cases h₂ : phase7_alt_tasks g snap l₂ d₁ with
        | none =>
          rw [phase7_alt_tasks_cons_none2 ht h₁,
            phase7_alt_tasks_cons_none2 ht h₂]
          trivial
        | some q =>
          rw [h₁, h₂] at ihd
          exact absurd ihd (by cases q; simp [ResRel])
      | some q =>
        obtain ⟨e, t₂⟩ := q
        cases h₂ : phase7_alt_tasks g snap l₂ d₁ with
        | none =>
          rw [h₁, h₂] at ihd
          exact absurd ihd (by simp [ResRel])
        | some q₂ =>
          obtain ⟨e', t₂'⟩ := q₂
          rw [h₁, h₂] at ihd
          obtain ⟨he, htr⟩ := ihd
          subst he
          rw [phase7_alt_tasks_cons_eval ht h₁,
            phase7_alt_tasks_cons_eval ht h₂]
          exact ⟨rfl, List.Perm.append_left _ htr⟩
  | swap x y l₀ =>
    intro hwf d
    by_cases hxy : x = y
    · subst hxy
      cases ht : phase7_alt_tasks g snap (x :: x :: l₀) d with
      | none => trivial
      | some p =>
        obtain ⟨e, tr⟩ := p
        exact ⟨rfl, List.Perm.refl _⟩
    · have hby : ∀ r ∈ snap.recs y,
          r.ino_startnum + XFS_INODES_PER_CHUNK ≤ 2 ^ g.aginoBits :=
        hwf y (List.mem_cons_self _ _)
      have hbx : ∀ r ∈ snap.recs x,
          r.ino_startnum + XFS_INODES_PER_CHUNK ≤ 2 ^ g.aginoBits :=
        hwf x (List.mem_cons_of_mem _ (List.mem_cons_self _ _))
      cases hty : phase7_alt_function g snap y d with
      | none =>
        rw [phase7_alt_tasks_cons_none1 hty]
        cases htx : phase7_alt_function g snap x d with
        | none =>
          rw [phase7_alt_tasks_cons_none1 htx]
          trivial
        | some p =>
          obtain ⟨dx, ex⟩ := p
          have hagx : ∀ i, i >>> g.aginoBits = y → d i = dx i := by
            intro i hi
            have hne : ¬(i >>> g.aginoBits = x) := by
              rw [hi]
              exact fun hh => hxy hh.symm
            exact (phase7_alt_function_frame hbx htx i hne).symm
          have hrel := phase7_alt_function_taskRel hby hagx
          rw [hty] at hrel
          cases hty2 : phase7_alt_function g snap y dx with
          | none =>
            rw [phase7_alt_tasks_cons_none2 htx
              (phase7_alt_tasks_cons_none1 hty2)]
            trivial
          | some q =>
            rw [hty2] at hrel
            exact absurd hrel (by cases q; simp [TaskRel])
      | some p =>
        obtain ⟨dy, ey⟩ := p
        cases htx : phase7_alt_function g snap x d with
        | none =>
          rw [phase7_alt_tasks_cons_none1 htx]
          have hagy : ∀ i, i >>> g.aginoBits = x → d i = dy i := by
            intro i hi
            have hne : ¬(i >>> g.aginoBits = y) := by
              rw [hi]
              exact hxy
            exact (phase7_alt_function_frame hby hty i hne).symm
          have hrel := phase7_alt_function_taskRel hbx hagy
          rw [htx] at hrel
          cases htx2 : phase7_alt_function g snap x dy with
          | none =>
            rw [phase7_alt_tasks_cons_none2 hty
              (phase7_alt_tasks_cons_none1 htx2)]
            trivial
          | some q =>
            rw [htx2] at hrel
            exact absurd hrel (by cases q; simp [TaskRel])
        | some q =>
          obtain ⟨dx, ex⟩ := q
          have hagx : ∀ i, i >>> g.aginoBits = y → d i = dx i := by
            intro i hi
            have hne : ¬(i >>> g.aginoBits = x) := by
              rw [hi]
              exact fun hh => hxy hh.symm
            exact (phase7_alt_function_frame hbx htx i hne).symm
          have hrely := phase7_alt_function_taskRel hby hagx
          rw [hty] at hrely
          have hagy : ∀ i, i >>> g.aginoBits = x → d i = dy i := by
            intro i hi
            have hne : ¬(i >>> g.aginoBits = y) := by
              rw [hi]
              exact hxy
            exact (phase7_alt_function_frame hby hty i hne).symm
          have hrelx := phase7_alt_function_taskRel hbx hagy
          rw [htx] at hrelx
          cases hty2 : phase7_alt_function g snap y dx with
          | none =>
            rw [hty2] at hrely
            exact absurd hrely (by simp [TaskRel])
          | some q2 =>
            obtain ⟨dyx, ey2⟩ := q2
            rw [hty2] at hrely
            obtain ⟨htre, hiny, houty⟩ := hrely
            subst htre
            cases htx2 : phase7_alt_function g snap x dy with
            | none =>
              rw [htx2] at hrelx
              exact absurd hrelx (by simp [TaskRel])
            | some q3 =>
              obtain ⟨dxy, ex2⟩ := q3
              rw [htx2] at hrelx
              obtain ⟨htre2, hinx, houtx⟩ := hrelx
              subst htre2
              have hdeq : dyx = dxy := by
                funext i
                by_cases hiy : i >>> g.aginoBits = y
                · rw [← hiny i hiy]
                  have hne : ¬(i >>> g.aginoBits = x) := by
                    rw [hiy]
                    exact fun hh => hxy hh.symm
                  exact ((houtx i hne).2).symm
                · by_cases hix : i >>> g.aginoBits = x
                  · rw [(houty i hiy).2]
                    exact hinx i hix
                  · rw [(houty i hiy).2, (houtx i hix).1,
                      (houtx i hix).2]
                    exact ((houty i hiy).1).symm
              subst hdeq
              cases htl : phase7_alt_tasks g snap l₀ dyx with
              | none =>
                rw [phase7_alt_tasks_cons_none2 hty
                  (phase7_alt_tasks_cons_none2 htx2 htl)]
                rw [phase7_alt_tasks_cons_none2 htx
                  (phase7_alt_tasks_cons_none2 hty2 htl)]
                trivial
              | some rr =>
                obtain ⟨ef, tf⟩ := rr
                rw [phase7_alt_tasks_cons_eval hty
                  (phase7_alt_tasks_cons_eval htx2 htl)]
                rw [phase7_alt_tasks_cons_eval htx
                  (phase7_alt_tasks_cons_eval hty2 htl)]
                refine ⟨rfl, ?_⟩
                have hstep : (ey ++ ex) ++ tf = ey ++ (ex ++ tf) :=
                  List.append_assoc _ _ _
                have hstep' : (ex ++ ey) ++ tf = ex ++ (ey ++ tf) :=
                  List.append_assoc _ _ _
                rw [← hstep, ← hstep']
                exact List.Perm.append_right tf List.perm_append_comm
  | trans hp₁ hp₂ ih₁ ih₂ =>
    rename_i l₁ l₂ l₃
    intro hwf d
    have r₁ := ih₁ hwf d
    have r₂ := ih₂ (fun a ha => hwf a (hp₁.symm.subset ha)) d
    cases h₂ : phase7_alt_tasks g snap l₂ d with
    | none =>
      rw [h₂] at r₁ r₂
      cases h₁ : phase7_alt_tasks g snap l₁ d with
      | none =>
        cases h₃ : phase7_alt_tasks g snap l₃ d with
        | none => trivial
        | some q =>
          rw [h₃] at r₂
          exact absurd r₂ (by cases q; simp [ResRel])
      | some q =>
        rw [h₁] at r₁
        exact absurd r₁ (by cases q; simp [ResRel])
    | some p =>
      obtain ⟨e₂, t₂⟩ := p
      rw [h₂] at r₁ r₂
      cases h₁ : phase7_alt_tasks g snap l₁ d with
      | none =>
        rw [h₁] at r₁
        exact absurd r₁ (by simp [ResRel])
      | some q₁ =>
        obtain ⟨e₁, t₁⟩ := q₁
        rw [h₁] at r₁
        obtain ⟨he₁, htr₁⟩ := r₁
        cases h₃ : phase7_alt_tasks g snap l₃ d with
        | none =>
          rw [h₃] at r₂
          exact absurd r₂ (by simp [ResRel])
        | some q₃ =>
          obtain ⟨e₃, t₃⟩ := q₃
          rw [h₃] at r₂
          obtain ⟨he₂, htr₂⟩ := r₂
          exact ⟨he₁.trans he₂, htr₁.trans htr₂⟩

/-- One AG: the concurrent chunk loop differs from the sequential one
only in progress accounting — same abort behaviour, same final disk,
same corrections. -/
theorem phase7_alt_chunks_vs_chunks (g : Globals) (a : Nat) :
    ∀ (chain : List InoTreeNode) (d : Disk),
      ResRel (fun tr tr' => corrections tr = corrections tr')
        (phase7_alt_chunks g a chain d) (phase7_chunks g a chain d) := by
  intro chain
  induction chain with
  | nil =>
    intro d
    exact ⟨rfl, rfl⟩
  | cons r rest ih =>
    intro d
    rw [phase7_alt_chunks_cons, phase7_chunks_cons]
    cases hcs : phase7_slots g a r (List.range XFS_INODES_PER_CHUNK) d with
    | none => trivial
    | some p =>
      obtain ⟨d₁, evs₁⟩ := p
      simp only [seqRes]
      have ihd := ih d₁
      cases hca : phase7_alt_chunks g a rest d₁ with
      | none =>
        cases hcc : phase7_chunks g a rest d₁ with
        | none => trivial
        | some q =>
          rw [hca, hcc] at ihd
          exact absurd ihd (by cases q; simp [ResRel])
      | some q =>
        obtain ⟨e, t₂⟩ := q
        cases hcc : phase7_chunks g a rest d₁ with
        | none =>
          rw [hca, hcc] at ihd
          exact absurd ihd (by simp [ResRel])
        | some q₂ =>
          obtain ⟨e', t₂'⟩ := q₂
          rw [hca, hcc] at ihd
          obtain ⟨he, hcorr⟩ := ihd
          subst he
          refine ⟨rfl, ?_⟩
          simp only [corrections] at hcorr
          simp [corrections, List.filterMap_append, hcorr]

/-- Over the same AG order, pool execution equals the sequential AG
loop up to progress events. -/
theorem phase7_alt_tasks_vs_ags (g : Globals) (snap : Snapshot) :
    ∀ (l : List Nat) (d : Disk),
      ResRel (fun tr tr' => corrections tr = corrections tr')
        (phase7_alt_tasks g snap l d) (phase7_ags g snap l d) := by
  intro l
  induction l with
  | nil =>
    intro d
    exact ⟨rfl, rfl⟩
  | cons a rest ih =>
    intro d
    rw [phase7_alt_tasks_cons, phase7_ags_cons]
    simp only [phase7_alt_function]
    have hfn := phase7_alt_chunks_vs_chunks g a (snap.recs a) d
    cases hfa : phase7_alt_chunks g a (snap.recs a) d with
    | none =>
      cases hfc : phase7_chunks g a (snap.recs a) d with
      | none => trivial
      | some q =>
        rw [hfa, hfc] at hfn
        exact absurd hfn (by cases q; simp [ResRel])
    | some p =>
      obtain ⟨d₁, evs₁⟩ := p
      cases hfc : phase7_chunks g a (snap.recs a) d with
      | none =>
        rw [hfa, hfc] at hfn
        exact absurd hfn (by simp [ResRel])
      | some q =>
        obtain ⟨d₁', evs₁'⟩ := q
        rw [hfa, hfc] at hfn
        obtain ⟨he₁, hcorr₁⟩ := hfn
        subst he₁
        simp only [seqRes]
        have ihd := ih d₁
        cases hta : phase7_alt_tasks g snap rest d₁ with
        | none =>
          cases hsa : phase7_ags g snap rest d₁ with
          | none => trivial
          | some q₂ =>
            rw [hta, hsa] at ihd
            exact absurd ihd (by cases q₂; simp [ResRel])
        | some q₂ =>
          obtain ⟨e, t₂⟩ := q₂
          cases hsa : phase7_ags g snap rest d₁ with
          | none =>
            rw [hta, hsa] at ihd
            exact absurd ihd (by simp [ResRel])
          | some q₃ =>
            obtain ⟨e', t₂'⟩ := q₃
            rw [hta, hsa] at ihd
            obtain ⟨he, hcorr⟩ := ihd
            subst he
            refine ⟨rfl, ?_⟩
            simp only [corrections] at hcorr hcorr₁
            simp [corrections, List.filterMap_append, hcorr, hcorr₁]

/-- **C3** (concurrent/sequential equivalence): for a fixed input
inode-record snapshot, the concurrent strategy (`phase7_alt`, one task
per allocation group, executed by the pool in any order `sched`) and the
sequential strategy (`phase7`'s nested loop over `[0, glob_agcount)`)
produce the same multiset of `{inode identity → corrected value}` pairs —
and in fact the same final disk and the same abort behaviour.  The
hypothesis bounds every chunk's slots to the AG-relative inode width, so
that distinct AGs own disjoint inode identities. -/
theorem C3_concurrent_sequential_equiv (g : Globals) (snap : Snapshot)
    (sched : List Nat) (d : Disk)
    (hperm : sched.Perm (List.range snap.glob_agcount))
    (hwf : ∀ a < snap.glob_agcount, ∀ r ∈ snap.recs a,
      r.ino_startnum + XFS_INODES_PER_CHUNK ≤ 2 ^ g.aginoBits) :
    Option.map (fun p => ((corrections p.2 : Multiset (Nat × Nat))))
        (phase7_alt g snap sched d) =
      Option.map (fun p => ((corrections p.2 : Multiset (Nat × Nat))))
        (phase7_ags g snap (List.range snap.glob_agcount) d) ∧
    Option.map Prod.fst (phase7_alt g snap sched d) =
      Option.map Prod.fst
        (phase7_ags g snap (List.range snap.glob_agcount) d) := by
  have hwf' : ∀ a ∈ sched, ∀ r ∈ snap.recs a,
      r.ino_startnum + XFS_INODES_PER_CHUNK ≤ 2 ^ g.aginoBits :=
    fun a ha => hwf a (List.mem_range.mp (hperm.subset ha))
  have h1 := phase7_alt_tasks_perm hperm hwf' d
  have h2 := phase7_alt_tasks_vs_ags g snap (List.range snap.glob_agcount) d
  cases hts : phase7_alt_tasks g snap sched d with
  | none =>
    rw [hts] at h1
    have halt : phase7_alt g snap sched d = none := by
      simp [phase7_alt, hts]
    cases htr : phase7_alt_tasks g snap (List.range snap.glob_agcount) d
      with
    | none =>
      rw [htr] at h2
      cases hag : phase7_ags g snap (List.range snap.glob_agcount) d with
      | none => simp [halt, hag]
      | some q =>
        rw [hag] at h2
        exact absurd h2 (by cases q; simp [ResRel])
    | some q =>
      rw [htr] at h1
      exact absurd h1 (by cases q; simp [ResRel])
  | some p =>
    obtain ⟨e, tr⟩ := p
    rw [hts] at h1
    have halt : phase7_alt g snap sched d =
        some (e, Event.startMsg g.no_modify :: tr ++ [Event.finalRpt]) := by
      simp [phase7_alt, hts]
    cases htr : phase7_alt_tasks g snap (List.range snap.glob_agcount) d
      with
    | none =>
      rw [htr] at h1
      exact absurd h1 (by simp [ResRel])
    | some q =>
      obtain ⟨e₂, t₂⟩ := q
      rw [htr] at h1 h2
      obtain ⟨he, hperm2⟩ := h1
      cases hag : phase7_ags g snap (List.range snap.glob_agcount) d with
      | none =>
        rw [hag] at h2
        exact absurd h2 (by simp [ResRel])
      | some q₃ =>
        obtain ⟨e₃, t₃⟩ := q₃
        rw [hag] at h2
        obtain ⟨he₂, hcorr⟩ := h2
        rw [halt]
        constructor
        · simp only [Option.map]
          congr 1
          have e1 : corrections (Event.startMsg g.no_modify :: tr ++
              [Event.finalRpt]) = corrections tr := by
            simp [corrections, List.filterMap_append]
          rw [e1, Multiset.coe_eq_coe]
          exact (List.Perm.filterMap _ hperm2).trans
            (hcorr ▸ List.Perm.refl _)
        · simp [he, he₂]

/-- A second AG for the C3 witness: its only live slot (slot 0, absolute
inode 64) is mismatched 7 → 4. -/
def exInoRecB : InoTreeNode where
  ino_startnum := 0
  is_inode_confirmed := fun _ => true
  is_inode_free := fun j => decide (j ≠ 0)
  is_inode_reached := fun _ => true
  is_inode_referenced := fun _ => true
  get_inode_disk_nlinks := fun _ => 7
  num_inode_references := fun _ => 4

def exSnapTwo : Snapshot where
  glob_agcount := 2
  recs := fun a => if a = 0 then [exInoRec] else
    if a = 1 then [exInoRecB] else []

def exDiskTwo : Disk := fun i =>
  if i = 64 then some 7
  else if i < 4 then some (if i = 1 then 3 else 1) else none

theorem C3_witness :
    Option.map (fun p => ((corrections p.2 : Multiset (Nat × Nat))))
        (phase7_alt exGMut exSnapTwo [1, 0] exDiskTwo) =
      Option.map (fun p => ((corrections p.2 : Multiset (Nat × Nat))))
        (phase7_ags exGMut exSnapTwo
          (List.range exSnapTwo.glob_agcount) exDiskTwo) ∧
    Option.map Prod.fst (phase7_alt exGMut exSnapTwo [1, 0] exDiskTwo) =
      Option.map Prod.fst (phase7_ags exGMut exSnapTwo
        (List.range exSnapTwo.glob_agcount) exDiskTwo) :=
  C3_concurrent_sequential_equiv exGMut exSnapTwo [1, 0] exDiskTwo
    (by decide) (by decide)

end XfsPhase7
